import Mathlib

/-!
Verification of the jump-threading MIR optimization pass.

Shallow embedding of `compiler/rustc_mir_transform/src/jump_threading.rs`:
the data model (conditions, condition sets, threading opportunities, basic
blocks, terminators), the opportunity finder (`TOFinder`), and the
opportunity applier (`OpportunitySet`), together with theorems checking the
natural-language specification against this embedding.

External collaborators (the tracked-place `Map`/`State` from
`rustc_mir_dataflow::value_analysis`, the `CostChecker` cost model, the
type/layout queries and the dominance query) are not part of this
repository's sources; they are modelled from the specification and appear
as explicit parameters or spec-modelled structures below.
-/

namespace JumpThreading

/-- Basic blocks are identified by their dense index (`BasicBlock`). -/
abbrev BasicBlock := Nat

/-- `START_BLOCK` is the entry block of a body. -/
def START_BLOCK : BasicBlock := 0

/-- `const MAX_BACKTRACK: usize = 5;` -/
def MAX_BACKTRACK : Nat := 5

/-- `const MAX_COST: usize = 100;` -/
def MAX_COST : Nat := 100

/-- Locals are identified by their dense index. -/
abbrev Local := Nat

/-- Places are kept opaque: the finder never inspects a place's projections
itself; all structure queries go through the tracked-place map (an external
collaborator). A local converts to a place via `Place.ofLocal`. -/
abbrev Place := Nat

/-- `Place::from(local)` -/
def Place.ofLocal (l : Local) : Place := l

/-- Index of a tracked place inside the external map. -/
abbrev PlaceIndex := Nat

/-- Track elements refining a tracked place: field projection,
variant downcast, or discriminant access. -/
inductive TrackElem where
  | Field (i : Nat)
  | Variant (i : Nat)
  | Discriminant
deriving DecidableEq, Repr

/-- A scalar integer: a value together with its size in bytes.
`ScalarInt` equality is structural (same size, same value). -/
structure ScalarInt where
  size : Nat
  val : Nat
deriving DecidableEq, Repr

/-- `ScalarInt::try_from_uint(value, size)`: succeeds exactly when `value`
fits in `size` bytes. -/
def ScalarInt.tryFromUint (v : Nat) (size : Nat) : Option ScalarInt :=
  if v < 2 ^ (8 * size) then some ⟨size, v⟩ else none

/-- `ScalarInt::TRUE` -/
def ScalarInt.TRUE : ScalarInt := ⟨1, 1⟩

/-- `ScalarInt::FALSE` -/
def ScalarInt.FALSE : ScalarInt := ⟨1, 0⟩

/-- `enum Polarity { Ne, Eq }` -/
inductive Polarity where
  | Ne
  | Eq
deriving DecidableEq, Repr

/-- `struct Condition { value, polarity, target }`: if the tracked place is
equal (`Eq`) / not equal (`Ne`) to `value`, jump to `target`. -/
structure Condition where
  value : ScalarInt
  polarity : Polarity
  target : BasicBlock
deriving DecidableEq, Repr

/-- `Condition::matches`. -/
def Condition.matches (c : Condition) (value : ScalarInt) : Bool :=
  (c.value = value) = (c.polarity = Polarity.Eq)

/-- `Condition::inv`: flip the polarity. -/
def Condition.inv (c : Condition) : Condition :=
  { c with polarity := match c.polarity with
      | Polarity.Eq => Polarity.Ne
      | Polarity.Ne => Polarity.Eq }

/-- `ConditionSet`: the ordered collection of conditions attached to one
tracked place (an arena slice in the source; a plain list here). -/
structure ConditionSet where
  conds : List Condition
deriving DecidableEq, Repr

instance : Inhabited ConditionSet := ⟨⟨[]⟩⟩

/-- `ConditionSet::iter_matches`. -/
def ConditionSet.iterMatches (cs : ConditionSet) (value : ScalarInt) : List Condition :=
  cs.conds.filter (fun c => c.matches value)

/-- `ConditionSet::map`. -/
def ConditionSet.map (cs : ConditionSet) (f : Condition → Condition) : ConditionSet :=
  ⟨cs.conds.map f⟩

/-- `struct ThreadingOpportunity { chain, target }`. The chain lists the
blocks from the one that found the opportunity to the `SwitchInt`; the
`SwitchInt` is to be replaced by `Goto { target }`. -/
structure ThreadingOpportunity where
  chain : List BasicBlock
  target : BasicBlock
deriving DecidableEq, Repr

instance : Inhabited ThreadingOpportunity := ⟨⟨[], 0⟩⟩

/-- A normalized constant operand: the result of
`const_.normalize(..).try_to_scalar_int()`, an external query. -/
structure ConstOp where
  toScalarInt : Option ScalarInt
deriving DecidableEq, Repr

/-- `Operand`: copy/move of a place, or a constant. -/
inductive Operand where
  | Copy (p : Place)
  | Move (p : Place)
  | Constant (c : ConstOp)
deriving DecidableEq, Repr

/-- `Operand::place`. -/
def Operand.place : Operand → Option Place
  | .Copy p => some p
  | .Move p => some p
  | .Constant _ => none

/-- `BinOp`: only `Eq` and `Ne` are distinguished by the pass. -/
inductive BinOp where
  | Eq
  | Ne
  | OtherOp
deriving DecidableEq, Repr

/-- `UnOp`: only `Not` is distinguished by the pass. -/
inductive UnOp where
  | Not
  | OtherUn
deriving DecidableEq, Repr

/-- `AggregateKind`: an ADT with variant index and optional active field
(unions use `Some`), or any other aggregate kind. -/
inductive AggregateKind where
  | Adt (variantIndex : Nat) (activeField : Option Nat)
  | OtherAgg
deriving DecidableEq, Repr

/-- `Rvalue`: the shapes distinguished by `process_statement`; every other
rvalue shape falls into `OtherRv` (handled by the catch-all arm). -/
inductive Rvalue where
  | Use (op : Operand)
  | CopyForDeref (p : Place)
  | Discriminant (p : Place)
  | Aggregate (kind : AggregateKind) (operands : List Operand)
  | UnaryOp (op : UnOp) (operand : Operand)
  | BinaryOp (op : BinOp) (lhs rhs : Operand)
  | OtherRv
deriving DecidableEq, Repr

/-- `StatementKind`: the kinds distinguished by `mutated_statement` and
`process_statement`. `OtherStmt` stands for the kinds that both functions
ignore identically (`Retag`, `CopyNonOverlapping`, `AscribeUserType`,
`Coverage`, `FakeRead`, `ConstEvalCounter`, `PlaceMention`, `Nop`). -/
inductive Stmt where
  | Assign (place : Place) (rv : Rvalue)
  | Deinit (place : Place)
  | SetDiscriminant (place : Place) (variantIndex : Nat)
  | StorageLive (l : Local)
  | StorageDead (l : Local)
  | IntrinsicAssume (op : Operand)
  | OtherStmt
deriving DecidableEq, Repr

/-- `SwitchTargets`: a list of `(value, target)` arms plus the otherwise
target. -/
structure SwitchTargets where
  arms : List (Nat × BasicBlock)
  otherwise : BasicBlock
deriving DecidableEq, Repr

/-- `SwitchTargets::iter`: the explicit (value, target) pairs, without the
otherwise target. -/
def SwitchTargets.iter (t : SwitchTargets) : List (Nat × BasicBlock) := t.arms

/-- `SwitchTargets::as_static_if`: `Some((value, then, else))` iff there is
exactly one explicit arm. -/
def SwitchTargets.asStaticIf (t : SwitchTargets) : Option (Nat × BasicBlock × BasicBlock) :=
  match t.arms with
  | [(v, thenBb)] => some (v, thenBb, t.otherwise)
  | _ => none

/-- `TerminatorKind`: the kinds this pass can meet. `Call`, `Drop` and
`Assert` carry their unwind edge as an optional successor; `Call` may have
no return target. The kinds that are disallowed during optimizations
(`FalseEdge`, `FalseUnwind`, `Yield`) are not representable. -/
inductive Terminator where
  | Goto (target : BasicBlock)
  | SwitchInt (discr : Operand) (targets : SwitchTargets)
  | Call (destination : Place) (target : Option BasicBlock) (unwind : Option BasicBlock)
  | Drop (place : Place) (target : BasicBlock) (unwind : Option BasicBlock)
  | Assert (cond : Operand) (expected : Bool) (target : BasicBlock) (unwind : Option BasicBlock)
  | InlineAsm (targets : List BasicBlock)
  | Return
  | Unreachable
  | UnwindResume
deriving DecidableEq, Repr

/-- `Terminator::successors`, in order and with multiplicity. -/
def Terminator.successors : Terminator → List BasicBlock
  | .Goto t => [t]
  | .SwitchInt _ targets => targets.arms.map (·.2) ++ [targets.otherwise]
  | .Call _ t u => t.toList ++ u.toList
  | .Drop _ t u => [t] ++ u.toList
  | .Assert _ _ t u => [t] ++ u.toList
  | .InlineAsm ts => ts
  | .Return => []
  | .Unreachable => []
  | .UnwindResume => []

/-- `Terminator::successors_mut` composed with a per-edge rewrite: replace
every successor by its image under `f`. -/
def Terminator.mapSuccessors (f : BasicBlock → BasicBlock) : Terminator → Terminator
  | .Goto t => .Goto (f t)
  | .SwitchInt d targets =>
      .SwitchInt d ⟨targets.arms.map (fun a => (a.1, f a.2)), f targets.otherwise⟩
  | .Call d t u => .Call d (t.map f) (u.map f)
  | .Drop p t u => .Drop p (f t) (u.map f)
  | .Assert c e t u => .Assert c e (f t) (u.map f)
  | .InlineAsm ts => .InlineAsm (ts.map f)
  | .Return => .Return
  | .Unreachable => .Unreachable
  | .UnwindResume => .UnwindResume

/-- `TerminatorKind::as_switch`. -/
def Terminator.asSwitch : Terminator → Option (Operand × SwitchTargets)
  | .SwitchInt d targets => some (d, targets)
  | _ => none

/-- `BasicBlockData`: statements, terminator, cleanup flag. -/
structure BasicBlockData where
  statements : List Stmt
  terminator : Terminator
  isCleanup : Bool
deriving DecidableEq, Repr

instance : Inhabited BasicBlockData := ⟨⟨[], .Unreachable, false⟩⟩

/-- A function body: its basic blocks, indexed by `BasicBlock`. -/
structure Body where
  blocks : List BasicBlockData
deriving DecidableEq, Repr

/-- Indexing a body by block number (blocks are dense indices). -/
def Body.getBlock (b : Body) (bb : BasicBlock) : BasicBlockData :=
  b.blocks.getD bb default

/-- The terminator of a block. -/
def Body.terminatorOf (b : Body) (bb : BasicBlock) : Terminator :=
  (b.getBlock bb).terminator

/-- Number of in-edges of `bb`: total number of occurrences of `bb` among
all terminators' successors. This is the length of the CFG accessor's
predecessor list for `bb`. -/
def Body.inEdges (b : Body) (bb : BasicBlock) : Nat :=
  (b.blocks.map (fun bd => bd.terminator.successors.count bb)).sum

/-- The CFG accessor's predecessor list of `bb`: each block `p` appears
once per edge `p -> bb`, in block order. -/
def Body.predecessorsOf (b : Body) (bb : BasicBlock) : List BasicBlock :=
  (List.range b.blocks.length).flatMap
    (fun p => List.replicate ((b.terminatorOf p).successors.count bb) p)

/-- `fn predecessor_count(body)`: per-block predecessor counts, with one
extra edge at `START_BLOCK` for the implicit entry edge. -/
def predecessor_count (b : Body) : List Nat :=
  (List.range b.blocks.length).map
    (fun bb => (b.predecessorsOf bb).length + if bb = START_BLOCK then 1 else 0)

/-- A body is well-formed when every successor edge points inside the body. -/
def Body.WF (b : Body) : Prop :=
  ∀ bd ∈ b.blocks, ∀ s ∈ bd.terminator.successors, s < b.blocks.length

instance (b : Body) : Decidable b.WF := by
  unfold Body.WF; infer_instance

/-! ## The opportunity applier (`OpportunitySet`) -/

/-- `struct OpportunitySet { opportunities, involving_tos, predecessors }`. -/
structure OpportunitySet where
  opportunities : List ThreadingOpportunity
  /-- For each bb, the pairs (index in `opportunities`, index in the chain)
  of the opportunities in which it appears. -/
  involving_tos : List (List (Nat × Nat))
  /-- Cached number of predecessors for each block. -/
  predecessors : List Nat
deriving DecidableEq, Repr

/-- Append one entry to the `i`-th inner list. -/
def pushAt (l : List (List α)) (i : Nat) (x : α) : List (List α) :=
  l.set i (l.getD i [] ++ [x])

/-- `OpportunitySet::new`. -/
def OpportunitySet.new (body : Body) (opps : List ThreadingOpportunity) : OpportunitySet :=
  let inv0 : List (List (Nat × Nat)) := List.replicate body.blocks.length []
  let inv := opps.enum.foldl
    (fun acc (ito : Nat × ThreadingOpportunity) =>
      let (index, opp) := ito
      let acc := opp.chain.enum.foldl
        (fun a (ibb : Nat × BasicBlock) => pushAt a ibb.2 (index, ibb.1)) acc
      pushAt acc opp.target (index, opp.chain.length))
    inv0
  { opportunities := opps, involving_tos := inv, predecessors := predecessor_count body }

/-- `enum Update { Incr, Decr }` -/
inductive Update where
  | Incr
  | Decr
deriving DecidableEq, Repr

/-- `OpportunitySet::update_predecessor_count`: bump the cached count of
every successor of the given terminator. -/
def updatePredecessorCount (preds : List Nat) (t : Terminator) (u : Update) : List Nat :=
  match u with
  | .Incr => t.successors.foldl (fun c s => c.set s (c.getD s 0 + 1)) preds
  | .Decr => t.successors.foldl (fun c s => c.set s (c.getD s 0 - 1)) preds

/-- The slow path of one `apply_once` hop (source lines 661-706): clone
`succ` into a fresh block, redirect the `current -> succ` edges onto the
clone, fix the predecessor counts, and rewrite the not-yet-applied
opportunities that referenced the `current -> succ` edge. -/
def involvedStep (index new_succ current succ : Nat)
    (acc : List ThreadingOpportunity × List (Nat × Nat)) (e : Nat × Nat) :
    List ThreadingOpportunity × List (Nat × Nat) :=
  let (to_index, in_to_index) := e
  if to_index ≤ index then acc
  else
    let other := acc.1.getD to_index default
    if other.chain.get? in_to_index ≠ some current then acc
    else match other.chain.get? (in_to_index + 1) with
      | some s =>
          if s = succ then
            (acc.1.set to_index { other with chain := other.chain.set (in_to_index + 1) new_succ },
             acc.2 ++ [(to_index, in_to_index + 1)])
          else acc
      | none =>
          if other.target = succ then
            (acc.1.set to_index { other with target := new_succ },
             acc.2 ++ [(to_index, in_to_index + 1)])
          else acc

def cloneHop (index : Nat) (current succ : BasicBlock) (os : OpportunitySet) (body : Body) :
    BasicBlock × OpportunitySet × Body :=
  let new_succ := body.blocks.length
  let body1 : Body := ⟨body.blocks ++ [body.getBlock succ]⟩
  -- Replace `succ` by `new_succ` where it appears in `current`'s terminator.
  let curTerm := body1.terminatorOf current
  let num_edges := curTerm.successors.count succ
  let curTerm' := curTerm.mapSuccessors (fun s => if s = succ then new_succ else s)
  let body2 : Body := ⟨body1.blocks.set current { body1.getBlock current with terminator := curTerm' }⟩
  -- Update predecessors with the new block.
  let preds1 := os.predecessors ++ [num_edges]
  let preds2 := preds1.set succ (preds1.getD succ 0 - num_edges)
  let preds3 := updatePredecessorCount preds2 (body2.terminatorOf new_succ) .Incr
  -- Replace the `current -> succ` edge by `current -> new_succ` in all the
  -- following opportunities, via `involving_tos[current]`.
  let folded := (os.involving_tos.getD current []).foldl
    (involvedStep index new_succ current succ) (os.opportunities, [])
  let inv' := os.involving_tos ++ [folded.2]
  (new_succ, ⟨folded.1, inv', preds3⟩, body2)

/-- One iteration of the chain-walking loop in `apply_once`, for the hop
`current -> succ`. `none` means the edge no longer exists and the
opportunity is abandoned (nothing was mutated in that branch). -/
def applyHop (index : Nat) (current succ : BasicBlock) (os : OpportunitySet) (body : Body) :
    Option (BasicBlock × OpportunitySet × Body) :=
  -- `succ` must be a successor of `current`, otherwise bail out.
  if ((body.terminatorOf current).successors.find? (· = succ)).isNone then none
  -- Fast path: `succ` is only used once, so we can reuse it directly.
  else if os.predecessors.getD succ 0 = 1 then some (succ, os, body)
  else some (cloneHop index current succ os body)

/-- The chain-walking loop of `apply_once`: walk all the hops, threading the
mutated state; the first component is `none` when a hop abandoned the
opportunity, otherwise the final value of `current`. -/
def applyChainLoop (index : Nat) :
    BasicBlock → List BasicBlock → OpportunitySet → Body →
    Option BasicBlock × OpportunitySet × Body
  | current, [], os, body => (some current, os, body)
  | current, succ :: rest, os, body =>
      match applyHop index current succ os body with
      | none => (none, os, body)
      | some (c', os', body') => applyChainLoop index c' rest os' body'

/-- The final step of `apply_once`: replace `current`'s terminator by
`Goto { target }` and fix the predecessor counts. -/
def finalizeOpportunity (current target : BasicBlock) (os : OpportunitySet) (body : Body) :
    OpportunitySet × Body :=
  let preds1 := updatePredecessorCount os.predecessors (body.terminatorOf current) .Decr
  let body' : Body := ⟨body.blocks.set current { body.getBlock current with terminator := .Goto target }⟩
  let preds2 := preds1.set target (preds1.getD target 0 + 1)
  ({ os with predecessors := preds2 }, body')

/-- `std::mem::take(&mut op.chain)`: empty the chain of the opportunity at
`index` in place. -/
def takeChain (os : OpportunitySet) (index : Nat) : OpportunitySet :=
  let op := os.opportunities.getD index default
  { os with opportunities := os.opportunities.set index { op with chain := [] } }

/-- `OpportunitySet::apply_once`. -/
def applyOnce (os : OpportunitySet) (index : Nat) (body : Body) : OpportunitySet × Body :=
  let op := os.opportunities.getD index default
  let op_chain := op.chain
  let op_target := op.target
  let os1 := takeChain os index
  match op_chain with
  | [] => (os1, body)
  | c :: rest =>
      match applyChainLoop index c rest os1 body with
      | (none, os', body') => (os', body')
      | (some cur, os', body') => finalizeOpportunity cur op_target os' body'

/-- `OpportunitySet::apply`: apply the opportunities in discovery order. -/
def OpportunitySet.apply (os : OpportunitySet) (body : Body) : OpportunitySet × Body :=
  (List.range os.opportunities.length).foldl
    (fun acc i => applyOnce acc.1 i acc.2) (os, body)

/-- The first `k` iterations of `OpportunitySet::apply`. -/
def applyN (os : OpportunitySet) (body : Body) (k : Nat) : OpportunitySet × Body :=
  (List.range k).foldl (fun acc i => applyOnce acc.1 i acc.2) (os, body)

/-! ## Spec-modelled external collaborators

The tracked-place index (`Map` from `rustc_mir_dataflow::value_analysis`),
the per-place search state (`State`), the type/layout queries and the cost
model are collaborators outside this repository's sources. They are
modelled from the specification. -/

/-- Modelled from the spec: the tracked-location index (`Map`), missing
from the sources. It builds a bounded location space up front
(`numPlaces` dense indices), finds the index of a place, projects an index
by a track element, and exposes, for flooding, the list of indices of a
place and everything it projects into. -/
structure TrackMap where
  numPlaces : Nat
  find : Place → Option PlaceIndex
  apply : PlaceIndex → TrackElem → Option PlaceIndex
  subtree : PlaceIndex → List PlaceIndex

/-- `Map::find_discr`: the index of the discriminant projection of a place. -/
def TrackMap.findDiscr (m : TrackMap) (p : Place) : Option PlaceIndex :=
  (m.find p).bind (fun i => m.apply i TrackElem.Discriminant)

/-- Modelled from the spec: the search state (`State<ConditionSet>`),
missing from the sources: a mapping from tracked-location index to its
current condition set, supporting point lookup, point replacement, flood,
and cheap duplication. -/
structure SearchState where
  values : List ConditionSet
deriving DecidableEq, Repr

/-- `State::new` with the default (empty) condition set everywhere. -/
def SearchState.new (m : TrackMap) : SearchState :=
  ⟨List.replicate m.numPlaces ⟨[]⟩⟩

/-- `TOFinder::is_empty`: `state.all(|cs| cs.0.is_empty())`. -/
def SearchState.isEmpty (st : SearchState) : Bool :=
  st.values.all (fun cs => cs.conds.isEmpty)

/-- `State::try_get_idx`. -/
def SearchState.tryGetIdx (st : SearchState) (i : PlaceIndex) : Option ConditionSet :=
  st.values[i]?

/-- `State::try_get`. -/
def SearchState.tryGet (st : SearchState) (p : Place) (m : TrackMap) : Option ConditionSet :=
  (m.find p).bind st.tryGetIdx

/-- `State::insert_value_idx`. -/
def SearchState.insertValueIdx (st : SearchState) (i : PlaceIndex) (cs : ConditionSet) :
    SearchState :=
  ⟨st.values.set i cs⟩

/-- `State::insert_place_idx(target, source, map)`: copy the condition set
of `source` onto `target` (modelled from the spec as a point copy). -/
def SearchState.insertPlaceIdx (st : SearchState) (target source : PlaceIndex) : SearchState :=
  ⟨st.values.set target (st.values.getD source default)⟩

/-- Set the condition sets of all the given indices to empty. -/
def SearchState.floodAll (st : SearchState) (idxs : List PlaceIndex) : SearchState :=
  ⟨idxs.foldl (fun v i => v.set i ⟨[]⟩) st.values⟩

/-- Modelled from the spec: `State::flood_with_tail_elem` with the default
value. With no tail element, clear the conditions of the place and of all
its sub-projections; with a tail element, clear only the conditions of the
projection obtained by applying it (and of that projection's subtree),
preserving everything else. -/
def SearchState.floodWithTail (st : SearchState) (p : Place) (tail : Option TrackElem)
    (m : TrackMap) : SearchState :=
  match m.find p with
  | none => st
  | some i =>
      match tail with
      | none => st.floodAll (m.subtree i)
      | some e =>
          match m.apply i e with
          | none => st
          | some d => st.floodAll (m.subtree d)

/-- `State::flood_with` with the default value. -/
def SearchState.floodWith (st : SearchState) (p : Place) (m : TrackMap) : SearchState :=
  st.floodWithTail p none m

/-- Types are opaque handles for the external type system. -/
abbrev Ty := Nat

/-- Modelled from the spec: the external type/layout query collaborators.
`placeTy` is `Place::ty`, `layoutSize` is `tcx.layout_of` reduced to the
scalar size in bytes (`none` on failure), `discrForVariant` is
`Ty::discriminant_for_variant` (value and type of the discriminant),
`isEnum` is `Ty::is_enum`. -/
structure Env where
  placeTy : Place → Ty
  layoutSize : Ty → Option Nat
  discrForVariant : Ty → Nat → Option (Nat × Ty)
  isEnum : Ty → Bool

/-- The `discriminant_for_variant` closure of `process_statement`: resolve
the discriminant value of a variant as a constant operand. -/
def discriminantForVariant (env : Env) (enumTy : Ty) (variantIndex : Nat) : Option Operand :=
  match env.discrForVariant enumTy variantIndex with
  | none => none
  | some (val, dty) =>
      match env.layoutSize dty with
      | none => none
      | some size =>
          match ScalarInt.tryFromUint val size with
          | none => none
          | some s => some (Operand.Constant ⟨some s⟩)

/-! ## The opportunity finder (`TOFinder`) -/

/-- `TOFinder::mutated_statement`: the place a statement mutates, with
`some Discriminant` as tail for a discriminant write. -/
def mutated_statement : Stmt → Option (Place × Option TrackElem)
  | .Assign place _ => some (place, none)
  | .Deinit place => some (place, none)
  | .SetDiscriminant place _ => some (place, some TrackElem.Discriminant)
  | .StorageLive l => some (Place.ofLocal l, none)
  | .StorageDead l => some (Place.ofLocal l, none)
  | .IntrinsicAssume _ => none
  | .OtherStmt => none

/-- `TOFinder::process_operand`. Registered opportunities are appended to
`opps`; the returned state is the updated search state. -/
def process_operand (map : TrackMap) (bb : BasicBlock) (lhs : PlaceIndex) (rhs : Operand)
    (st : SearchState) (opps : List ThreadingOpportunity) :
    SearchState × List ThreadingOpportunity :=
  match rhs with
  | .Constant constant =>
      match st.tryGetIdx lhs with
      | none => (st, opps)
      | some conditions =>
          match constant.toScalarInt with
          | none => (st, opps)
          | some c =>
              (st, opps ++ (conditions.iterMatches c).map
                (fun cond => ⟨[bb], cond.target⟩))
  | .Move rhsP =>
      match map.find rhsP with
      | none => (st, opps)
      | some rhsIdx => (st.insertPlaceIdx rhsIdx lhs, opps)
  | .Copy rhsP =>
      match map.find rhsP with
      | none => (st, opps)
      | some rhsIdx => (st.insertPlaceIdx rhsIdx lhs, opps)

/-- The operand of a binary operation paired with a constant, in either
order; mirrors the or-pattern of the `Rvalue::BinaryOp` arm. -/
def binOpPlaceConst : Operand → Operand → Option (Place × ConstOp)
  | .Move p, .Constant v => some (p, v)
  | .Copy p, .Constant v => some (p, v)
  | .Constant v, .Move p => some (p, v)
  | .Constant v, .Copy p => some (p, v)
  | _, _ => none

/-- The fields loop at the end of the `Rvalue::Aggregate` arm. -/
def aggregateFields (map : TrackMap) (bb : BasicBlock) (base : PlaceIndex)
    (operands : List Operand) (st : SearchState) (opps : List ThreadingOpportunity) :
    SearchState × List ThreadingOpportunity :=
  operands.enum.foldl
    (fun acc fo =>
      match map.apply base (TrackElem.Field fo.1) with
      | none => acc
      | some field => process_operand map bb field fo.2 acc.1 acc.2)
    (st, opps)

/-- `TOFinder::process_statement`. -/
def process_statement (env : Env) (map : TrackMap) (bb : BasicBlock) (stmt : Stmt)
    (st : SearchState) (opps : List ThreadingOpportunity) :
    SearchState × List ThreadingOpportunity :=
  match stmt with
  | .SetDiscriminant place variantIndex =>
      match map.findDiscr place with
      | none => (st, opps)
      | some discrTarget =>
          let enumTy := env.placeTy place
          match discriminantForVariant env enumTy variantIndex with
          | none => (st, opps)
          | some discr => process_operand map bb discrTarget discr st opps
  | .IntrinsicAssume op =>
      match op with
      | .Copy place | .Move place =>
          match st.tryGet place map with
          | none => (st, opps)
          | some conditions =>
              (st, opps ++ (conditions.iterMatches ScalarInt.TRUE).map
                (fun c => ⟨[bb], c.target⟩))
      | .Constant _ => (st, opps)
  | .Assign lhsPlace rv =>
      match map.find lhsPlace with
      | none => (st, opps)
      | some lhs =>
          match rv with
          | .Use operand => process_operand map bb lhs operand st opps
          | .CopyForDeref rhs => process_operand map bb lhs (Operand.Copy rhs) st opps
          | .Discriminant rhs =>
              match map.findDiscr rhs with
              | none => (st, opps)
              | some rhsIdx => (st.insertPlaceIdx rhsIdx lhs, opps)
          | .Aggregate kind operands =>
              let aggTy := env.placeTy lhsPlace
              match kind with
              | .Adt _ (some _) => (st, opps)
              | .Adt variantIndex none =>
                  if env.isEnum aggTy then
                    let acc1 :=
                      match map.apply lhs TrackElem.Discriminant,
                            discriminantForVariant env aggTy variantIndex with
                      | some discrTarget, some discrValue =>
                          process_operand map bb discrTarget discrValue st opps
                      | _, _ => (st, opps)
                    match map.apply lhs (TrackElem.Variant variantIndex) with
                    | none => acc1
                    | some lhsV => aggregateFields map bb lhsV operands acc1.1 acc1.2
                  else aggregateFields map bb lhs operands st opps
              | .OtherAgg => aggregateFields map bb lhs operands st opps
          | .UnaryOp unop operand =>
              match unop, operand with
              | .Not, .Copy place | .Not, .Move place =>
                  match st.tryGetIdx lhs with
                  | none => (st, opps)
                  | some conditions =>
                      match map.find place with
                      | none => (st, opps)
                      | some pIdx =>
                          (st.insertValueIdx pIdx (conditions.map Condition.inv), opps)
              | _, _ => (st, opps)
          | .BinaryOp op o1 o2 =>
              match binOpPlaceConst o1 o2 with
              | none => (st, opps)
              | some (place, value) =>
                  match st.tryGetIdx lhs with
                  | none => (st, opps)
                  | some conditions =>
                      match map.find place with
                      | none => (st, opps)
                      | some pIdx =>
                          let equalsOpt : Option ScalarInt :=
                            match op with
                            | .Eq => some ScalarInt.TRUE
                            | .Ne => some ScalarInt.FALSE
                            | .OtherOp => none
                          match equalsOpt with
                          | none => (st, opps)
                          | some equals =>
                              match value.toScalarInt with
                              | none => (st, opps)
                              | some v =>
                                  let conds := conditions.map (fun c =>
                                    { c with
                                      value := v,
                                      polarity := if c.matches equals then Polarity.Eq
                                                  else Polarity.Ne })
                                  (st.insertValueIdx pIdx conds, opps)
          | .OtherRv => (st, opps)
  | .Deinit _ => (st, opps)
  | .StorageLive _ => (st, opps)
  | .StorageDead _ => (st, opps)
  | .OtherStmt => (st, opps)

/-- `TOFinder::process_switch_int`: fold the arm constraints of the switch
at the single predecessor into registered opportunities. Only reads the
state. -/
def process_switch_int (env : Env) (map : TrackMap) (discr : Operand)
    (targets : SwitchTargets) (targetBb : BasicBlock) (st : SearchState)
    (opps : List ThreadingOpportunity) : List ThreadingOpportunity :=
  match discr.place with
  | none => opps
  | some discrP =>
      let discrTy := env.placeTy discrP
      match env.layoutSize discrTy with
      | none => opps
      | some size =>
          match st.tryGet discrP map with
          | none => opps
          | some conditions =>
              match targets.iter.find? (fun vt => vt.2 == targetBb) with
              | some (value, _) =>
                  match ScalarInt.tryFromUint value size with
                  | none => opps
                  | some v =>
                      opps ++ (conditions.iterMatches v).map (fun c => ⟨[], c.target⟩)
              | none =>
                  match targets.asStaticIf with
                  | some (value, _, elseBb) =>
                      if targetBb = elseBb then
                        match ScalarInt.tryFromUint value size with
                        | none => opps
                        | some v =>
                            opps ++ (conditions.conds.filter
                              (fun c => c.value == v && c.polarity == Polarity.Ne)).map
                              (fun c => ⟨[], c.target⟩)
                      else opps
                  | none => opps

/-- `TOFinder::recurse_through_terminator`, split: everything before the
final recursive call. The first component is `none` when recursion stops
at this terminator, otherwise the (possibly flooded) state to recurse
with; registered opportunities are appended to `opps`. The terminator
kinds with no successors cannot occur here (we only come from a successor
edge; the source raises `bug!`). -/
def recursePrep (map : TrackMap) (bb : BasicBlock) (term : Terminator)
    (st : SearchState) (opps : List ThreadingOpportunity) :
    Option SearchState × List ThreadingOpportunity :=
  match term with
  | .Return | .Unreachable | .UnwindResume => (none, opps)
  | .InlineAsm _ => (none, opps)
  | .SwitchInt _ _ => (none, opps)
  | .Goto _ => (some st, opps)
  | .Drop place _ _ => (some (st.floodWith place map), opps)
  | .Call destination _ _ => (some (st.floodWith destination map), opps)
  | .Assert cond expected _ _ =>
      let opps' :=
        match cond.place with
        | none => opps
        | some p =>
            match st.tryGet p map with
            | none => opps
            | some conditions =>
                let e := if expected then ScalarInt.TRUE else ScalarInt.FALSE
                opps ++ (conditions.iterMatches e).map
                  (fun c => (⟨[bb], c.target⟩ : ThreadingOpportunity))
      (some st, opps')

/-- The parameters threaded through the finder: the body, the external
collaborators, the loop-header set and the per-statement cost of the
external cost model. -/
structure FinderParams where
  body : Body
  env : Env
  map : TrackMap
  loopHeaders : BasicBlock → Bool
  stmtCost : Stmt → Nat

/-- The statement loop of `find_opportunity`: walk the statements (already
reversed) with the running cost; the first component is `none` when the
search along this path stopped (state empty or cost budget exceeded). -/
def processStmts (P : FinderParams) (bb : BasicBlock) :
    List Stmt → SearchState → Nat → List ThreadingOpportunity →
    Option (SearchState × Nat) × List ThreadingOpportunity
  | [], st, cost, opps => (some (st, cost), opps)
  | stmt :: rest, st, cost, opps =>
      if st.isEmpty then (none, opps)
      else
        let cost' := cost + P.stmtCost stmt
        if MAX_COST < cost' then (none, opps)
        else
          let acc := process_statement P.env P.map bb stmt st opps
          let st2 :=
            match mutated_statement stmt with
            | some (lhs, tail) => acc.1.floodWithTail lhs tail P.map
            | none => acc.1
          processStmts P bb rest st2 cost' acc.2

/-- The deduplication step at the end of `find_opportunity` (lines
265-286): if every predecessor yielded its own one-block opportunity to
the same target, collapse them into one anchored at `bb`; otherwise append
`bb` to every newly found chain. -/
def dedup_tos (preds : List BasicBlock) (bb : BasicBlock) (lastNonRec : Nat)
    (opps : List ThreadingOpportunity) : List ThreadingOpportunity :=
  let newTos := opps.drop lastNonRec
  if 1 < newTos.length && newTos.length == preds.length &&
     (preds.zip newTos).all (fun pt =>
       pt.2.chain == [pt.1] && pt.2.target == (newTos.headD default).target)
  then opps.take lastNonRec ++ [⟨[bb], (newTos.headD default).target⟩]
  else opps.take lastNonRec ++ newTos.map (fun opp => { opp with chain := opp.chain ++ [bb] })

/-- `TOFinder::find_opportunity`. The recursion is driven by an explicit
fuel (first argument); the source bounds the recursion by the guard
`depth >= MAX_BACKTRACK`, so any fuel exceeding `MAX_BACKTRACK - depth`
makes the fuel-exhaustion branch unreachable (the entry point uses
`MAX_BACKTRACK + 1` at depth 0). -/
def find_opportunity (P : FinderParams) :
    Nat → BasicBlock → SearchState → Nat → Nat → List ThreadingOpportunity →
    List ThreadingOpportunity
  | 0, _, _, _, _, opps => opps
  | fuel + 1, bb, st, cost, depth, opps =>
      -- Do not thread through loop headers.
      if P.loopHeaders bb then opps
      else
        match processStmts P bb (P.body.getBlock bb).statements.reverse st cost opps with
        | (none, opps1) => opps1
        | (some (st1, cost1), opps1) =>
            if st1.isEmpty || decide (MAX_BACKTRACK ≤ depth) then opps1
            else
              let lastNonRec := opps1.length
              let preds := P.body.predecessorsOf bb
              let opps2 :=
                match preds, decide (bb ≠ START_BLOCK) with
                | [pred], true =>
                    (match P.body.terminatorOf pred with
                     | .SwitchInt discr targets =>
                         find_opportunity P fuel pred st1 cost1 (depth + 1)
                           (process_switch_int P.env P.map discr targets bb st1 opps1)
                     | term =>
                         match recursePrep P.map pred term st1 opps1 with
                         | (none, opps') => opps'
                         | (some st', opps') =>
                             find_opportunity P fuel pred st' cost1 (depth + 1) opps')
                | ps, _ =>
                    ps.foldl
                      (fun acc pred =>
                        match recursePrep P.map pred (P.body.terminatorOf pred) st1 acc with
                        | (none, acc') => acc'
                        | (some st', acc') =>
                            find_opportunity P fuel pred st' cost1 (depth + 1) acc')
                      opps1
              dedup_tos preds bb lastNonRec opps2

/-- The seeding of the initial conditions in `run_pass` (lines 100-113):
one `Eq`/`Ne` pair for a static if, one `Eq` condition per explicit arm
otherwise. `none` means the switch is skipped entirely. -/
def seedConditions (targets : SwitchTargets) (size : Nat) : Option (List Condition) :=
  match targets.asStaticIf with
  | some (value, thenBb, elseBb) =>
      match ScalarInt.tryFromUint value size with
      | none => none
      | some v => some [⟨v, Polarity.Eq, thenBb⟩, ⟨v, Polarity.Ne, elseBb⟩]
  | none =>
      some (targets.iter.filterMap (fun vt =>
        (ScalarInt.tryFromUint vt.1 size).map (fun v => ⟨v, Polarity.Eq, vt.2⟩)))

/-- The per-switch eligibility checks of `run_pass` (lines 83-115): skip
cleanup blocks, loop headers, non-switch terminators, discriminants that
are not places, unlayoutable or untracked discriminants, and unseedable
targets. -/
def switchSeed (P : FinderParams) (bb : BasicBlock) : Option (PlaceIndex × List Condition) :=
  let bbdata := P.body.getBlock bb
  if bbdata.isCleanup || P.loopHeaders bb then none
  else
    match bbdata.terminator.asSwitch with
    | none => none
    | some (discr, targets) =>
        match discr.place with
        | none => none
        | some discrP =>
            let discrTy := P.env.placeTy discrP
            match P.env.layoutSize discrTy with
            | none => none
            | some size =>
                match P.map.find discrP with
                | none => none
                | some discrIdx =>
                    match seedConditions targets size with
                    | none => none
                    | some conds => some (discrIdx, conds)

/-- The discovery phase of `JumpThreading::run_pass`: run the finder from
every eligible switch, accumulating opportunities in block order. -/
def runPassOpportunities (P : FinderParams) : List ThreadingOpportunity :=
  (List.range P.body.blocks.length).foldl
    (fun opps bb =>
      match switchSeed P bb with
      | none => opps
      | some (discrIdx, conds) =>
          let st := (SearchState.new P.map).insertValueIdx discrIdx ⟨conds⟩
          find_opportunity P (MAX_BACKTRACK + 1) bb st 0 0 opps)
    []

/-- The assertion of `run_pass` (lines 126-129): no discovered chain may
contain a loop header. -/
def runPassAssertion (P : FinderParams) : Bool :=
  (runPassOpportunities P).all (fun opp => opp.chain.all (fun b => !P.loopHeaders b))

/-! ## The loop-header detector -/

/-- Preorder depth-first traversal of the reachable blocks, as the
`traversal::preorder` collaborator provides it: pop a block, yield it if
unseen, push its successors. Driven by fuel covering every possible push. -/
def dfsPreorder (body : Body) : Nat → List BasicBlock → List BasicBlock → List BasicBlock
  | 0, _, visited => visited
  | _ + 1, [], visited => visited
  | fuel + 1, bb :: stack, visited =>
      if visited.contains bb then dfsPreorder body fuel stack visited
      else dfsPreorder body fuel ((body.terminatorOf bb).successors ++ stack) (visited ++ [bb])

/-- The reachable blocks of a body, in preorder. -/
def reachablePreorder (body : Body) : List BasicBlock :=
  dfsPreorder body
    (1 + body.blocks.length + (body.blocks.map (fun bd => bd.terminator.successors.length)).sum)
    [START_BLOCK] []

/-- `fn loop_headers(body)`: a block is a loop header if it is the target
of a successor edge out of a reachable block that it dominates. The
dominance relation is the external dominance query. -/
def loop_headers (body : Body) (dominates : BasicBlock → BasicBlock → Bool) :
    List BasicBlock :=
  (reachablePreorder body).foldl
    (fun acc bb =>
      (body.terminatorOf bb).successors.foldl
        (fun a succ => if dominates succ bb then a ++ [succ] else a) acc)
    []

/-! ## Helper lemmas -/

theorem foldl_preserve {α β : Type _} {P : α → Prop} (step : α → β → α) (l : List β)
    (init : α) (h0 : P init) (hstep : ∀ a x, x ∈ l → P a → P (step a x)) :
    P (l.foldl step init) := by
  induction l generalizing init with
  | nil => exact h0
  | cons x xs ih =>
      exact ih (step init x) (hstep init x (by simp) h0)
        (fun a y hy ha => hstep a y (by simp [hy]) ha)

theorem floodAll_tryGetIdx (st : SearchState) (idxs : List PlaceIndex) (j : Nat) :
    (st.floodAll idxs).tryGetIdx j =
      if j ∈ idxs ∧ j < st.values.length then some ⟨[]⟩ else st.tryGetIdx j := by
  induction idxs generalizing st with
  | nil => simp [SearchState.floodAll, SearchState.tryGetIdx]
  | cons i rest ih =>
      have hstep : st.floodAll (i :: rest) = SearchState.floodAll ⟨st.values.set i ⟨[]⟩⟩ rest := rfl
      rw [hstep, ih]
      simp only [SearchState.tryGetIdx, List.length_set]
      by_cases hmem : j ∈ rest
      · by_cases hlen : j < st.values.length
        · simp [hmem, hlen]
        · simp only [hmem, hlen, and_false, and_true, if_false, List.getElem?_set]
          rw [List.getElem?_eq_none (Nat.le_of_not_lt hlen)]
          by_cases hij : i = j
          · subst hij
            simp [hlen]
          · simp [hij]
      · by_cases hij : i = j
        · subst hij
          by_cases hlen : i < st.values.length
          · simp [hmem, hlen, List.getElem?_set_eq_of_lt _ hlen]
          · rw [List.set_eq_of_length_le (Nat.le_of_not_lt hlen)]
            simp [hmem, hlen]
        · have hji : ¬(j = i) := fun h => hij h.symm
          simp [hmem, hji, List.getElem?_set_ne hij]

theorem seedArms_filterMap (arms : List (Nat × BasicBlock)) (size : Nat)
    (hfit : ∀ vt ∈ arms, vt.1 < 2 ^ (8 * size)) :
    arms.filterMap (fun vt => (ScalarInt.tryFromUint vt.1 size).map
        (fun v => (⟨v, Polarity.Eq, vt.2⟩ : Condition))) =
      arms.map (fun vt => ⟨⟨size, vt.1⟩, Polarity.Eq, vt.2⟩) := by
  induction arms with
  | nil => simp
  | cons vt rest ih =>
      have h1 : vt.1 < 2 ^ (8 * size) := hfit vt (by simp)
      have ih' := ih (fun x hx => hfit x (by simp [hx]))
      have hhead : ScalarInt.tryFromUint vt.1 size = some ⟨size, vt.1⟩ := by
        simp [ScalarInt.tryFromUint, h1]
      simp only [List.filterMap_cons, hhead, Option.map_some', List.map_cons]
      rw [ih']

theorem floodAll_length (st : SearchState) (idxs : List PlaceIndex) :
    (st.floodAll idxs).values.length = st.values.length := by
  induction idxs generalizing st with
  | nil => rfl
  | cons i rest ih =>
      have hstep : st.floodAll (i :: rest) = SearchState.floodAll ⟨st.values.set i ⟨[]⟩⟩ rest := rfl
      rw [hstep, ih]
      simp

/-! ## Claim theorems -/

/-- C6: every backward search path stops when its condition state becomes
entirely empty, or when the accumulated cost exceeds `MAX_COST` (the
overrunning statement is not processed), or when the recursion depth
reaches `MAX_BACKTRACK` (no further backward hop is taken); the finder is
a total function, so the DFS terminates within these bounds. -/
theorem C6_search_budgets (P : FinderParams) :
    (∀ fuel bb st cost depth opps, st.isEmpty = true →
       find_opportunity P (fuel + 1) bb st cost depth opps = opps) ∧
    (∀ bb stmt rest st cost opps, st.isEmpty = false →
       MAX_COST < cost + P.stmtCost stmt →
       processStmts P bb (stmt :: rest) st cost opps = (none, opps)) ∧
    (∀ fuel bb st cost depth opps, MAX_BACKTRACK ≤ depth → P.loopHeaders bb = false →
       find_opportunity P (fuel + 1) bb st cost depth opps =
         (processStmts P bb (P.body.getBlock bb).statements.reverse st cost opps).2) := by
  refine ⟨?_, ?_, ?_⟩
  · intro fuel bb st cost depth opps hempty
    by_cases hlh : P.loopHeaders bb
    · simp [find_opportunity, hlh]
    · simp only [find_opportunity, hlh, Bool.false_eq_true, if_false]
      cases hl : (P.body.getBlock bb).statements.reverse with
      | nil => simp [processStmts, hempty]
      | cons s rest => simp [processStmts, hempty]
  · intro bb stmt rest st cost opps hne hcost
    simp [processStmts, hne, hcost]
  · intro fuel bb st cost depth opps hdepth hlh
    simp only [find_opportunity, hlh, Bool.false_eq_true, if_false]
    rcases hps : processStmts P bb (P.body.getBlock bb).statements.reverse st cost opps with
      ⟨o, opps1⟩
    cases o with
    | none => rfl
    | some sc =>
        rcases sc with ⟨st1, cost1⟩
        simp [hdepth]

/-- Witness for C6 at concrete inputs. -/
theorem C6_search_budgets_witness :
    (let P : FinderParams :=
       ⟨⟨[⟨[], Terminator.Return, false⟩]⟩,
        ⟨fun _ => 0, fun _ => some 1, fun _ _ => none, fun _ => false⟩,
        ⟨1, fun p => if p = 0 then some 0 else none, fun _ _ => none, fun i => [i]⟩,
        fun _ => false, fun _ => 101⟩
     find_opportunity P 1 0 ⟨[⟨[]⟩]⟩ 0 0 [] = [] ∧
     processStmts P 0 [Stmt.OtherStmt] ⟨[⟨[⟨⟨1, 0⟩, Polarity.Eq, 0⟩]⟩]⟩ 0 [] = (none, []) ∧
     find_opportunity P 1 0 ⟨[⟨[⟨⟨1, 0⟩, Polarity.Eq, 0⟩]⟩]⟩ 0 5 [] =
       (processStmts P 0 [] ⟨[⟨[⟨⟨1, 0⟩, Polarity.Eq, 0⟩]⟩]⟩ 0 []).2) := by
  intro P
  refine ⟨(C6_search_budgets P).1 0 0 _ 0 0 [] (by decide), ?_, ?_⟩
  · exact (C6_search_budgets P).2.1 0 Stmt.OtherStmt [] _ 0 [] (by decide) (by decide)
  · exact (C6_search_budgets P).2.2 0 0 _ 0 5 [] (by decide) (by decide)

/-- C7: the initial search state of `run_pass` attaches to the tracked
discriminant exactly `Eq(v, then)` and `Ne(v, else)` for a static if, and
exactly one `Eq(v, t)` condition per explicit arm (none for the otherwise
target) for a general switch. -/
theorem C7_initial_conditions :
    (∀ targets v t e size sv, SwitchTargets.asStaticIf targets = some (v, t, e) →
       ScalarInt.tryFromUint v size = some sv →
       seedConditions targets size =
         some [⟨sv, Polarity.Eq, t⟩, ⟨sv, Polarity.Ne, e⟩]) ∧
    (∀ targets size, SwitchTargets.asStaticIf targets = none →
       (∀ vt ∈ targets.arms, vt.1 < 2 ^ (8 * size)) →
       seedConditions targets size =
         some (targets.arms.map (fun vt => ⟨⟨size, vt.1⟩, Polarity.Eq, vt.2⟩))) ∧
    (∀ (m : TrackMap) (i : PlaceIndex) (conds : List Condition), i < m.numPlaces →
       ((SearchState.new m).insertValueIdx i ⟨conds⟩).tryGetIdx i = some ⟨conds⟩) ∧
    (∀ (P : FinderParams) (bb : BasicBlock) (discr : Operand) (targets : SwitchTargets)
       (discrP : Place) (size : Nat) (discrIdx : PlaceIndex) (conds : List Condition),
       (P.body.getBlock bb).isCleanup = false → P.loopHeaders bb = false →
       (P.body.getBlock bb).terminator = Terminator.SwitchInt discr targets →
       discr.place = some discrP →
       P.env.layoutSize (P.env.placeTy discrP) = some size →
       P.map.find discrP = some discrIdx →
       seedConditions targets size = some conds →
       switchSeed P bb = some (discrIdx, conds)) := by
  refine ⟨?_, ?_, ?_, ?_⟩
  · intro targets v t e size sv hsif hfit
    simp [seedConditions, hsif, hfit]
  · intro targets size hsif hfit
    simp only [seedConditions, hsif, SwitchTargets.iter]
    rw [seedArms_filterMap targets.arms size hfit]
  · intro m i conds hi
    unfold SearchState.new SearchState.insertValueIdx SearchState.tryGetIdx
    rw [List.getElem?_set_eq_of_lt]
    simpa using hi
  · intro P bb discr targets discrP size discrIdx conds hcl hlh hterm hp hl hfind hseed
    unfold switchSeed
    simp only [hcl, hlh, hterm, Bool.or_self, Bool.false_eq_true, if_false,
      Terminator.asSwitch, hp, hl, hfind, hseed]

/-- Witness for C7 at concrete inputs. -/
theorem C7_initial_conditions_witness :
    seedConditions ⟨[(0, 2)], 3⟩ 1 =
      some [⟨⟨1, 0⟩, Polarity.Eq, 2⟩, ⟨⟨1, 0⟩, Polarity.Ne, 3⟩] ∧
    seedConditions ⟨[(0, 2), (1, 3)], 4⟩ 1 =
      some [⟨⟨1, 0⟩, Polarity.Eq, 2⟩, ⟨⟨1, 1⟩, Polarity.Eq, 3⟩] ∧
    ((SearchState.new ⟨1, fun _ => none, fun _ _ => none, fun i => [i]⟩).insertValueIdx 0
        ⟨[⟨⟨1, 0⟩, Polarity.Eq, 2⟩]⟩).tryGetIdx 0 = some ⟨[⟨⟨1, 0⟩, Polarity.Eq, 2⟩]⟩ ∧
    switchSeed
      ⟨⟨[⟨[], Terminator.SwitchInt (Operand.Copy 0) ⟨[(0, 2)], 3⟩, false⟩,
         ⟨[], Terminator.Return, false⟩, ⟨[], Terminator.Return, false⟩,
         ⟨[], Terminator.Return, false⟩]⟩,
       ⟨fun _ => 0, fun _ => some 1, fun _ _ => none, fun _ => false⟩,
       ⟨1, fun p => if p = 0 then some 0 else none, fun _ _ => none, fun i => [i]⟩,
       fun _ => false, fun _ => 0⟩ 0 =
      some (0, [⟨⟨1, 0⟩, Polarity.Eq, 2⟩, ⟨⟨1, 0⟩, Polarity.Ne, 3⟩]) := by
  refine ⟨C7_initial_conditions.1 ⟨[(0, 2)], 3⟩ 0 2 3 1 ⟨1, 0⟩ (by decide) (by decide),
    ?_, ?_, ?_⟩
  · have h := C7_initial_conditions.2.1 ⟨[(0, 2), (1, 3)], 4⟩ 1 (by decide) (by decide)
    simpa using h
  · exact C7_initial_conditions.2.2.1 ⟨1, fun _ => none, fun _ _ => none, fun i => [i]⟩ 0
      [⟨⟨1, 0⟩, Polarity.Eq, 2⟩] (by decide)
  · exact C7_initial_conditions.2.2.2 _ 0 (Operand.Copy 0) ⟨[(0, 2)], 3⟩ 0 1 0
      [⟨⟨1, 0⟩, Polarity.Eq, 2⟩, ⟨⟨1, 0⟩, Polarity.Ne, 3⟩]
      (by decide) (by decide) (by decide) (by decide) (by decide) (by decide) (by decide)

/-- C8: when the backward search folds the else edge of a two-way switch
on value `v` into the state, it registers opportunities exactly for the
discriminant's conditions of value `v` and polarity `Ne`; no `Eq`
condition and no `Ne` condition with another value is discharged. -/
theorem C8_else_edge_discharges_only_ne (env : Env) (map : TrackMap) (discr : Operand)
    (targets : SwitchTargets) (targetBb : BasicBlock) (st : SearchState)
    (opps : List ThreadingOpportunity) (discrP : Place) (size : Nat)
    (conditions : ConditionSet) (v : Nat) (thenBb : BasicBlock) (sv : ScalarInt)
    (hp : discr.place = some discrP)
    (hl : env.layoutSize (env.placeTy discrP) = some size)
    (hc : st.tryGet discrP map = some conditions)
    (hnotarm : targets.iter.find? (fun vt => vt.2 == targetBb) = none)
    (hsif : targets.asStaticIf = some (v, thenBb, targetBb))
    (hv : ScalarInt.tryFromUint v size = some sv) :
    process_switch_int env map discr targets targetBb st opps =
      opps ++ (conditions.conds.filter
          (fun c => c.value == sv && c.polarity == Polarity.Ne)).map
        (fun c => ⟨[], c.target⟩) := by
  simp [process_switch_int, hp, hl, hc, hnotarm, hsif, hv]

/-- Witness for C8 at concrete inputs: the else edge of `switch x [0 -> 2]
else 3` entering block 3 discharges `Ne(0)` but neither `Eq(0)` nor
`Ne(1)`. -/
theorem C8_else_edge_discharges_only_ne_witness :
    process_switch_int
      ⟨fun _ => 0, fun _ => some 1, fun _ _ => none, fun _ => false⟩
      ⟨1, fun p => if p = 0 then some 0 else none, fun _ _ => none, fun i => [i]⟩
      (Operand.Copy 0) ⟨[(0, 2)], 3⟩ 3
      ⟨[⟨[⟨⟨1, 0⟩, Polarity.Eq, 4⟩, ⟨⟨1, 0⟩, Polarity.Ne, 5⟩, ⟨⟨1, 1⟩, Polarity.Ne, 6⟩]⟩]⟩ []
      = [⟨[], 5⟩] := by
  have h := C8_else_edge_discharges_only_ne
    ⟨fun _ => 0, fun _ => some 1, fun _ _ => none, fun _ => false⟩
    ⟨1, fun p => if p = 0 then some 0 else none, fun _ _ => none, fun i => [i]⟩
    (Operand.Copy 0) ⟨[(0, 2)], 3⟩ 3
    ⟨[⟨[⟨⟨1, 0⟩, Polarity.Eq, 4⟩, ⟨⟨1, 0⟩, Polarity.Ne, 5⟩, ⟨⟨1, 1⟩, Polarity.Ne, 6⟩]⟩]⟩ []
    0 1 ⟨[⟨⟨1, 0⟩, Polarity.Eq, 4⟩, ⟨⟨1, 0⟩, Polarity.Ne, 5⟩, ⟨⟨1, 1⟩, Polarity.Ne, 6⟩]⟩
    0 2 ⟨1, 0⟩ (by decide) (by decide) (by decide) (by decide) (by decide) (by decide)
  simpa using h

/-- C10: processing `lhs = (place == B)` or `lhs = (place != B)` with `B`
a constant scalar transfers every condition on `lhs` onto `place`, with
value `B`, target kept, and polarity `Eq` exactly when the old condition
matches the boolean under which the comparison succeeds (`true` for `==`,
`false` for `!=`). -/
theorem C10_comparison_transfer (env : Env) (map : TrackMap) (bb : BasicBlock)
    (lhsPlace : Place) (op : BinOp) (o1 o2 : Operand) (place : Place) (value : ConstOp)
    (st : SearchState) (opps : List ThreadingOpportunity) (lhs : PlaceIndex)
    (conditions : ConditionSet) (pIdx : PlaceIndex) (B equals : ScalarInt)
    (hpc : binOpPlaceConst o1 o2 = some (place, value))
    (hlhs : map.find lhsPlace = some lhs)
    (hconds : st.tryGetIdx lhs = some conditions)
    (hplace : map.find place = some pIdx)
    (hop : (op = BinOp.Eq ∧ equals = ScalarInt.TRUE) ∨
           (op = BinOp.Ne ∧ equals = ScalarInt.FALSE))
    (hval : value.toScalarInt = some B) :
    process_statement env map bb (Stmt.Assign lhsPlace (Rvalue.BinaryOp op o1 o2)) st opps =
      (st.insertValueIdx pIdx (⟨conditions.conds.map (fun c =>
         { c with value := B,
                  polarity := if c.matches equals then Polarity.Eq else Polarity.Ne })⟩),
       opps) := by
  rcases hop with ⟨hop, heq⟩ | ⟨hop, heq⟩ <;> subst hop <;> subst heq <;>
    simp [process_statement, hpc, hlhs, hconds, hplace, hval, ConditionSet.map]

/-- Witness for C10 at concrete inputs: `lhs = (x != 2)` with conditions
`Eq(true, 7)` and `Ne(5, 8)` on `lhs` becomes `Ne(2, 7)` and `Eq(2, 8)`
on `x` (the non-boolean-valued condition is transferred too). -/
theorem C10_comparison_transfer_witness :
    process_statement
      ⟨fun _ => 0, fun _ => some 1, fun _ _ => none, fun _ => false⟩
      ⟨2, fun p => if p = 0 then some 0 else if p = 1 then some 1 else none,
       fun _ _ => none, fun i => [i]⟩
      9 (Stmt.Assign 1 (Rvalue.BinaryOp BinOp.Ne (Operand.Copy 0)
        (Operand.Constant ⟨some ⟨1, 2⟩⟩)))
      ⟨[⟨[]⟩, ⟨[⟨⟨1, 1⟩, Polarity.Eq, 7⟩, ⟨⟨1, 5⟩, Polarity.Ne, 8⟩]⟩]⟩ []
      = (⟨[⟨[⟨⟨1, 2⟩, Polarity.Ne, 7⟩, ⟨⟨1, 2⟩, Polarity.Eq, 8⟩]⟩,
           ⟨[⟨⟨1, 1⟩, Polarity.Eq, 7⟩, ⟨⟨1, 5⟩, Polarity.Ne, 8⟩]⟩]⟩, []) := by
  have h := C10_comparison_transfer
    ⟨fun _ => 0, fun _ => some 1, fun _ _ => none, fun _ => false⟩
    ⟨2, fun p => if p = 0 then some 0 else if p = 1 then some 1 else none,
     fun _ _ => none, fun i => [i]⟩
    9 1 BinOp.Ne (Operand.Copy 0) (Operand.Constant ⟨some ⟨1, 2⟩⟩) 0 ⟨some ⟨1, 2⟩⟩
    ⟨[⟨[]⟩, ⟨[⟨⟨1, 1⟩, Polarity.Eq, 7⟩, ⟨⟨1, 5⟩, Polarity.Ne, 8⟩]⟩]⟩ [] 1
    ⟨[⟨⟨1, 1⟩, Polarity.Eq, 7⟩, ⟨⟨1, 5⟩, Polarity.Ne, 8⟩]⟩ 0 ⟨1, 2⟩ ScalarInt.FALSE
    (by decide) (by decide) (by decide) (by decide) (Or.inr ⟨rfl, rfl⟩) (by decide)
  rw [h]
  decide

/-- C9: a mutating statement (assignment, deinit, storage-live,
storage-dead) floods, after condition processing, the whole condition
subtree of the mutated place; a `SetDiscriminant` write floods only the
discriminant projection's subtree, leaving all other indices (in
particular variant-field sub-projections) unchanged. -/
theorem C9_mutation_flood (P : FinderParams) :
    (∀ place rv, mutated_statement (Stmt.Assign place rv) = some (place, none)) ∧
    (∀ place, mutated_statement (Stmt.Deinit place) = some (place, none)) ∧
    (∀ l, mutated_statement (Stmt.StorageLive l) = some (Place.ofLocal l, none)) ∧
    (∀ l, mutated_statement (Stmt.StorageDead l) = some (Place.ofLocal l, none)) ∧
    (∀ place vi, mutated_statement (Stmt.SetDiscriminant place vi) =
       some (place, some TrackElem.Discriminant)) ∧
    (∀ bb stmt rest st cost opps, st.isEmpty = false →
       ¬ MAX_COST < cost + P.stmtCost stmt →
       processStmts P bb (stmt :: rest) st cost opps =
         processStmts P bb rest
           (match mutated_statement stmt with
            | some (lhs, tail) =>
                (process_statement P.env P.map bb stmt st opps).1.floodWithTail lhs tail P.map
            | none => (process_statement P.env P.map bb stmt st opps).1)
           (cost + P.stmtCost stmt)
           (process_statement P.env P.map bb stmt st opps).2) ∧
    (∀ (st : SearchState) (p : Place) (m : TrackMap) (i : PlaceIndex),
       m.find p = some i →
       (∀ j ∈ m.subtree i, j < st.values.length) →
       ((∀ j ∈ m.subtree i, (st.floodWithTail p none m).tryGetIdx j = some ⟨[]⟩) ∧
        (∀ j, j ∉ m.subtree i →
           (st.floodWithTail p none m).tryGetIdx j = st.tryGetIdx j))) ∧
    (∀ (st : SearchState) (p : Place) (m : TrackMap) (i d : PlaceIndex),
       m.find p = some i → m.apply i TrackElem.Discriminant = some d →
       (∀ j ∈ m.subtree d, j < st.values.length) →
       ((∀ j ∈ m.subtree d,
           (st.floodWithTail p (some TrackElem.Discriminant) m).tryGetIdx j = some ⟨[]⟩) ∧
        (∀ j, j ∉ m.subtree d →
           (st.floodWithTail p (some TrackElem.Discriminant) m).tryGetIdx j =
             st.tryGetIdx j))) := by
  refine ⟨fun _ _ => rfl, fun _ => rfl, fun _ => rfl, fun _ => rfl, fun _ _ => rfl, ?_, ?_, ?_⟩
  · intro bb stmt rest st cost opps hne hcost
    simp [processStmts, hne, hcost]
  · intro st p m i hfind hbound
    unfold SearchState.floodWithTail
    rw [hfind]
    constructor
    · intro j hj
      rw [floodAll_tryGetIdx]
      simp [hj, hbound j hj]
    · intro j hj
      rw [floodAll_tryGetIdx]
      simp [hj]
  · intro st p m i d hfind happly hbound
    unfold SearchState.floodWithTail
    rw [hfind]
    simp only [happly]
    constructor
    · intro j hj
      rw [floodAll_tryGetIdx]
      simp [hj, hbound j hj]
    · intro j hj
      rw [floodAll_tryGetIdx]
      simp [hj]

/-- Witness for C9 at concrete inputs: with place index 0 carrying
discriminant child 1 and variant-field child 2, a discriminant flood
clears index 1 but leaves index 2; a whole-place flood clears all. -/
theorem C9_mutation_flood_witness :
    (let m : TrackMap :=
       ⟨3, fun p => if p = 0 then some 0 else none,
        fun i e => if i == 0 && e == TrackElem.Discriminant then some 1 else none,
        fun i => if i = 0 then [0, 1, 2] else [i]⟩
     let st : SearchState :=
       ⟨[⟨[⟨⟨1, 0⟩, Polarity.Eq, 4⟩]⟩, ⟨[⟨⟨1, 1⟩, Polarity.Eq, 5⟩]⟩,
         ⟨[⟨⟨1, 2⟩, Polarity.Ne, 6⟩]⟩]⟩
     (st.floodWithTail 0 (some TrackElem.Discriminant) m).tryGetIdx 1 = some ⟨[]⟩ ∧
     (st.floodWithTail 0 (some TrackElem.Discriminant) m).tryGetIdx 2 = st.tryGetIdx 2 ∧
     (st.floodWithTail 0 none m).tryGetIdx 2 = some ⟨[]⟩ ∧
     mutated_statement (Stmt.SetDiscriminant 0 1) = some (0, some TrackElem.Discriminant)) := by
  intro m st
  have hP : FinderParams :=
    ⟨⟨[]⟩, ⟨fun _ => 0, fun _ => none, fun _ _ => none, fun _ => false⟩, m,
     fun _ => false, fun _ => 0⟩
  refine ⟨?_, ?_, ?_, (C9_mutation_flood hP).2.2.2.2.1 0 1⟩
  · exact ((C9_mutation_flood hP).2.2.2.2.2.2.2 st 0 m 0 1 (by decide) (by decide)
      (by decide)).1 1 (by decide)
  · exact ((C9_mutation_flood hP).2.2.2.2.2.2.2 st 0 m 0 1 (by decide) (by decide)
      (by decide)).2 2 (by decide)
  · exact ((C9_mutation_flood hP).2.2.2.2.2.2.1 st 0 m 0 (by decide)
      (by decide)).1 2 (by decide)

/-- Every pair of a list zipped with its image under the one-block-chain
construction satisfies the dedup test. -/
theorem zip_map_chain_prop (l : List BasicBlock) (tgt : BasicBlock) :
    ∀ x x1, (x, x1) ∈ l.zip (l.map (fun p => (⟨[p], tgt⟩ : ThreadingOpportunity))) →
      x1.chain = [x] ∧ x1.target = tgt := by
  induction l with
  | nil => simp
  | cons a l ih =>
      intro x x1 h
      simp only [List.map_cons, List.zip_cons_cons, List.mem_cons] at h
      rcases h with h | h
      · rw [Prod.mk.injEq] at h
        rcases h with ⟨rfl, rfl⟩
        exact ⟨rfl, rfl⟩
      · exact ih x x1 h

/-- C5 (amended): if a block has more than one predecessor and, after
recursing into them, every predecessor yielded exactly one newly
discovered opportunity whose chain is that single predecessor, all with
the same target, the finder collapses them into exactly one opportunity
whose chain is the current block alone. -/
theorem C5_dedup_collapse (preds : List BasicBlock) (bb tgt : BasicBlock)
    (pre : List ThreadingOpportunity) (hlen : 1 < preds.length) :
    dedup_tos preds bb pre.length
        (pre ++ preds.map (fun p => ⟨[p], tgt⟩)) =
      pre ++ [⟨[bb], tgt⟩] := by
  obtain ⟨p, ps, rfl⟩ : ∃ p ps, preds = p :: ps := by
    cases preds with
    | nil => simp at hlen
    | cons p ps => exact ⟨p, ps, rfl⟩
  unfold dedup_tos
  rw [List.drop_left, List.take_left]
  simp only [List.length_cons] at hlen
  simp only [List.map_cons, List.headD_cons]
  simp [hlen]
  exact fun x x1 h => zip_map_chain_prop ps tgt x x1 h

/-- Witness for C5 at concrete inputs: a join block 2 whose two
predecessors each yielded a one-block opportunity to target 7 gets a
single collapsed opportunity anchored at 2. -/
theorem C5_dedup_collapse_witness :
    dedup_tos [0, 1] 2 0 [⟨[0], 7⟩, ⟨[1], 7⟩] = [⟨[2], 7⟩] := by
  have h := C5_dedup_collapse [0, 1] 2 7 [] (by decide)
  simpa using h

/-- Counterexample for C5 as stated: with a single-predecessor block, the
premise holds (the lone predecessor 0 yielded exactly the opportunity
`{chain := [0], target := 2}`) but the finder produces `{chain := [0, 1],
target := 2}`, not an opportunity anchored at block 1 alone. -/
theorem C5_single_pred_not_collapsed :
    (let body : Body := ⟨[
       ⟨[Stmt.Assign 0 (Rvalue.Use (Operand.Constant ⟨some ⟨1, 0⟩⟩))],
        Terminator.Goto 1, false⟩,
       ⟨[], Terminator.SwitchInt (Operand.Copy 0) ⟨[(0, 2)], 3⟩, false⟩,
       ⟨[], Terminator.Return, false⟩,
       ⟨[], Terminator.Return, false⟩]⟩
     let P : FinderParams :=
       ⟨body, ⟨fun _ => 0, fun _ => some 1, fun _ _ => none, fun _ => false⟩,
        ⟨1, fun p => if p = 0 then some 0 else none, fun _ _ => none, fun i => [i]⟩,
        fun _ => false, fun _ => 0⟩
     let seeded := (SearchState.new P.map).insertValueIdx 0
       ⟨[⟨⟨1, 0⟩, Polarity.Eq, 2⟩, ⟨⟨1, 0⟩, Polarity.Ne, 3⟩]⟩
     body.predecessorsOf 1 = [0] ∧
     find_opportunity P 5 0 seeded 0 1 [] = [⟨[0], 2⟩] ∧
     runPassOpportunities P = [⟨[0, 1], 2⟩] ∧
     ¬ runPassOpportunities P = [⟨[1], 2⟩]) := by
  intro body P seeded
  refine ⟨by decide, by decide, by decide, by decide⟩

/-- C1 (amended): applying an opportunity with an empty chain changes
nothing; with a non-empty chain, when the chain walk completes (every
hop's edge still existed), the terminator replaced by the direct jump
`Goto target` is that of the final block reached by the walk — the last
chain block or its clone — not that of `chain[0]`. -/
theorem C1_apply_rewrites_walk_end :
    (∀ os index body, (os.opportunities.getD index default).chain = [] →
       (applyOnce os index body).2 = body) ∧
    (∀ os index body c rest cur os2 body2,
       (os.opportunities.getD index default).chain = c :: rest →
       applyChainLoop index c rest (takeChain os index) body = (some cur, os2, body2) →
       cur < body2.blocks.length →
       ((applyOnce os index body).2.getBlock cur).terminator =
         Terminator.Goto (os.opportunities.getD index default).target ∧
       (applyOnce os index body).2.blocks.length = body2.blocks.length) := by
  constructor
  · intro os index body h
    simp only [applyOnce, h]
  · intro os index body c rest cur os2 body2 hchain hloop hcur
    have happ : applyOnce os index body =
        finalizeOpportunity cur (os.opportunities.getD index default).target os2 body2 := by
      simp only [applyOnce, hchain, hloop]
    rw [happ]
    unfold finalizeOpportunity
    constructor
    · simp only [Body.getBlock]
      rw [List.getD_eq_getElem?_getD, List.getElem?_set_eq_of_lt _ hcur]
      rfl
    · simp

/-- Witness for C1 at concrete inputs: chain `[0, 1]` over `0 -> 1 -> 2`
walks to block 1 (reused in place), whose terminator becomes `Goto 3`;
the empty-chain opportunity leaves the body unchanged. -/
theorem C1_apply_rewrites_walk_end_witness :
    (let body : Body := ⟨[⟨[], Terminator.Goto 1, false⟩, ⟨[], Terminator.Goto 2, false⟩,
       ⟨[], Terminator.Return, false⟩, ⟨[], Terminator.Return, false⟩]⟩
     let os := OpportunitySet.new body [⟨[0, 1], 3⟩, ⟨[], 3⟩]
     (applyOnce os 1 body).2 = body ∧
     ((applyOnce os 0 body).2.getBlock 1).terminator = Terminator.Goto 3) := by
  intro body os
  refine ⟨C1_apply_rewrites_walk_end.1 os 1 body (by decide), ?_⟩
  exact (C1_apply_rewrites_walk_end.2 os 0 body 0 [1] 1 (takeChain os 0) body
    (by decide) (by decide) (by decide)).1

/-- Counterexample for C1 as stated: for the opportunity `{chain := [0, 1],
target := 3}` the terminator of `chain[0]` (block 0) stays `Goto 1` and
never becomes a direct jump to the target; and applying the empty-chain
opportunity `{chain := [], target := 3}` rewrites no terminator at all. -/
theorem C1_chain_head_not_rewritten :
    (let body : Body := ⟨[⟨[], Terminator.Goto 1, false⟩, ⟨[], Terminator.Goto 2, false⟩,
       ⟨[], Terminator.Return, false⟩, ⟨[], Terminator.Return, false⟩]⟩
     let os := OpportunitySet.new body [⟨[0, 1], 3⟩, ⟨[], 3⟩]
     (os.opportunities.getD 0 default).chain = [0, 1] ∧
     (os.opportunities.getD 0 default).target = 3 ∧
     ((applyOnce os 0 body).2.getBlock 0).terminator = Terminator.Goto 1 ∧
     ¬ ((applyOnce os 0 body).2.getBlock 0).terminator = Terminator.Goto 3 ∧
     (os.opportunities.getD 1 default).chain = [] ∧
     (os.opportunities.getD 1 default).target = 3 ∧
     (applyOnce os 1 body).2 = body ∧
     ((applyOnce os 1 body).2.blocks.all
       (fun bd => !(bd.terminator == Terminator.Goto 3))) = true) := by
  intro body os
  exact ⟨by decide, by decide, by decide, by decide, by decide, by decide, by decide, by decide⟩

/-! ## Predecessor-count characterization -/

theorem sum_map_range {M : Type _} [AddCommMonoid M] (f : Nat → M) (n : Nat) :
    ((List.range n).map f).sum = ∑ i ∈ Finset.range n, f i := by
  induction n with
  | zero => simp
  | succ n ih => rw [List.range_succ, Finset.sum_range_succ, List.map_append, List.sum_append, ih]; simp

theorem map_range_getD {α β : Type _} (l : List α) (d : α) (f : α → β) :
    (List.range l.length).map (fun i => f (l.getD i d)) = l.map f := by
  apply List.ext_getElem
  · simp
  · intro i h1 h2
    simp only [List.getElem_map, List.getElem_range]
    congr 1
    rw [List.getD_eq_getElem?_getD, List.getElem?_eq_getElem (by simpa using h1)]
    rfl

theorem inEdges_eq_sum (body : Body) (b : BasicBlock) :
    body.inEdges b =
      ∑ p ∈ Finset.range body.blocks.length, ((body.terminatorOf p).successors.count b) := by
  unfold Body.inEdges
  rw [← sum_map_range (fun p => ((body.terminatorOf p).successors.count b))]
  congr 1
  rw [← map_range_getD body.blocks default (fun bd => bd.terminator.successors.count b)]
  rfl

theorem predecessorsOf_length (body : Body) (b : BasicBlock) :
    (body.predecessorsOf b).length = body.inEdges b := by
  unfold Body.predecessorsOf
  rw [List.length_flatMap, inEdges_eq_sum, ← sum_map_range]
  congr 1
  apply List.map_congr_left
  intro p _
  simp

theorem predecessor_count_length (body : Body) :
    (predecessor_count body).length = body.blocks.length := by
  simp [predecessor_count]

theorem predecessor_count_getD (body : Body) (b : BasicBlock)
    (hb : b < body.blocks.length) :
    (predecessor_count body).getD b 0 =
      body.inEdges b + (if b = START_BLOCK then 1 else 0) := by
  unfold predecessor_count
  rw [List.getD_eq_getElem?_getD, List.getElem?_map, List.getElem?_range hb]
  simp [predecessorsOf_length]

theorem predecessor_count_getD_ge (body : Body) (b : BasicBlock)
    (hb : body.blocks.length ≤ b) :
    (predecessor_count body).getD b 0 = 0 := by
  rw [List.getD_eq_getElem?_getD, List.getElem?_eq_none (by simpa [predecessor_count] using hb)]
  rfl

theorem count_le_inEdges (body : Body) (p b : Nat) (hp : p < body.blocks.length) :
    (body.terminatorOf p).successors.count b ≤ body.inEdges b := by
  rw [inEdges_eq_sum]
  exact @Finset.single_le_sum Nat Nat _ (fun p => ((body.terminatorOf p).successors.count b))
    (Finset.range body.blocks.length) (fun i _ => Nat.zero_le _) p (Finset.mem_range.mpr hp)

theorem edge_source_lt (body : Body) (current succ : BasicBlock)
    (h : succ ∈ (body.terminatorOf current).successors) : current < body.blocks.length := by
  by_contra hc
  have : body.getBlock current = default := by
    unfold Body.getBlock
    rw [List.getD_eq_getElem?_getD, List.getElem?_eq_none (Nat.le_of_not_lt hc)]
    rfl
  rw [Body.terminatorOf, this] at h
  simp [default, Terminator.successors] at h

theorem one_le_count_of_mem {a : Nat} {l : List Nat} (h : a ∈ l) : 1 ≤ l.count a := by
  exact List.count_pos_iff.mpr h

/-- C3: along a hop `current -> succ` whose edge still exists, with the
cached predecessor counts accurate, `succ` is cloned into a fresh
(appended) block exactly when its current predecessor count exceeds one;
with exactly one predecessor it is reused in place with no change at all. -/
theorem C3_clone_iff_shared (os : OpportunitySet) (body : Body) (index current succ : Nat)
    (hcache : os.predecessors = predecessor_count body)
    (hsucc : succ < body.blocks.length)
    (hedge : succ ∈ (body.terminatorOf current).successors) :
    1 ≤ (predecessor_count body).getD succ 0 ∧
    ((predecessor_count body).getD succ 0 = 1 →
       applyHop index current succ os body = some (succ, os, body)) ∧
    (1 < (predecessor_count body).getD succ 0 →
       ∃ os' body', applyHop index current succ os body =
           some (body.blocks.length, os', body') ∧
         body'.blocks.length = body.blocks.length + 1 ∧
         body'.getBlock body.blocks.length = body.getBlock succ) := by
  have hcur : current < body.blocks.length := edge_source_lt body current succ hedge
  have hcount : 1 ≤ (body.terminatorOf current).successors.count succ :=
    one_le_count_of_mem hedge
  have hin : 1 ≤ body.inEdges succ :=
    le_trans hcount (count_le_inEdges body current succ hcur)
  have hpc := predecessor_count_getD body succ hsucc
  have hfindF : (((body.terminatorOf current).successors.find? (· = succ)).isNone) = false := by
    cases hf : (body.terminatorOf current).successors.find? (· = succ) with
    | none => exact absurd (by simp) (List.find?_eq_none.mp hf succ hedge)
    | some x => rfl
  refine ⟨by omega, ?_, ?_⟩
  · intro h1
    have h1' : os.predecessors.getD succ 0 = 1 := by rw [hcache]; exact h1
    unfold applyHop
    rw [hfindF]
    simp only [Bool.false_eq_true, if_false]
    rw [if_pos h1']
  · intro hgt
    have hne1 : ¬ (os.predecessors.getD succ 0 = 1) := by rw [hcache]; omega
    unfold applyHop
    rw [hfindF]
    simp only [Bool.false_eq_true, if_false]
    rw [if_neg hne1]
    refine ⟨_, _, rfl, ?_, ?_⟩
    · simp
    · unfold Body.getBlock
      rw [List.getD_eq_getElem?_getD, List.getElem?_set_ne (Nat.ne_of_lt hcur),
        List.getElem?_append_right (le_refl _)]
      simp [Body.getBlock]

/-- Witness for C3 at concrete inputs: in `0 -> 1 -> 2 <- 3`, block 1 has
one predecessor and is reused in place; block 2 has two predecessors and
is cloned into the fresh block 4. -/
theorem C3_clone_iff_shared_witness :
    (let body : Body := ⟨[⟨[], Terminator.Goto 1, false⟩, ⟨[], Terminator.Goto 2, false⟩,
       ⟨[], Terminator.Return, false⟩, ⟨[], Terminator.Goto 2, false⟩]⟩
     let os := OpportunitySet.new body []
     applyHop 0 0 1 os body = some (1, os, body) ∧
     ∃ os' body', applyHop 0 1 2 os body = some (body.blocks.length, os', body') ∧
       body'.blocks.length = body.blocks.length + 1 ∧
       body'.getBlock body.blocks.length = body.getBlock 2) := by
  intro body os
  constructor
  · exact (C3_clone_iff_shared os body 0 0 1 (by decide) (by decide) (by decide)).2.1 (by decide)
  · exact (C3_clone_iff_shared os body 0 1 2 (by decide) (by decide) (by decide)).2.2 (by decide)

/-! ## The loop-header invariant (C2) -/

/-- Reachability along CFG edges avoiding the block `avoid`. -/
inductive ReachAvoid (body : Body) (avoid : BasicBlock) : BasicBlock → BasicBlock → Prop
  | refl (b : BasicBlock) (h : b ≠ avoid) : ReachAvoid body avoid b b
  | step {a b c : BasicBlock} (h : ReachAvoid body avoid a b)
      (hs : c ∈ (body.terminatorOf b).successors) (hc : c ≠ avoid) :
      ReachAvoid body avoid a c

/-- `d` dominates `b`: every CFG path from `START_BLOCK` to `b` passes
through `d`. -/
def Dominates (body : Body) (d b : BasicBlock) : Prop :=
  d = b ∨ ¬ ReachAvoid body d START_BLOCK b

/-- The failing input for C2: `0 -> 1`, `1 -(assert x)-> 2`,
`2 -(switch x: 0 -> 3, else -> 1)`. Block 1 is a loop header (it
dominates its predecessor 2). -/
def c2Body : Body := ⟨[
  ⟨[], Terminator.Goto 1, false⟩,
  ⟨[], Terminator.Assert (Operand.Copy 0) true 2 none, false⟩,
  ⟨[], Terminator.SwitchInt (Operand.Copy 0) ⟨[(0, 3)], 1⟩, false⟩,
  ⟨[], Terminator.Return, false⟩]⟩

/-- The dominance relation of `c2Body` (blocks form the chain
`0 -> 1 -> 2` with the back edge `2 -> 1`, so `d` dominates `b` exactly
when `d ≤ b`); grounded against `Dominates` below for every edge that
`loop_headers` queries. -/
def c2Dom : BasicBlock → BasicBlock → Bool := fun d b => d ≤ b

def c2Params : FinderParams :=
  ⟨c2Body, ⟨fun _ => 0, fun _ => some 1, fun _ _ => none, fun _ => false⟩,
   ⟨1, fun p => if p = 0 then some 0 else none, fun _ _ => none, fun i => [i]⟩,
   fun b => (loop_headers c2Body c2Dom).contains b, fun _ => 0⟩

theorem c2_reach_avoid1_aux : ∀ a x, ReachAvoid c2Body 1 a x → a = 0 → x = 0 := by
  intro a x h
  induction h with
  | refl hb => exact fun h0 => h0
  | step h hs hc ih =>
      intro h0
      have hb := ih h0
      subst hb
      have hsuc : (c2Body.terminatorOf 0).successors = [1] := by decide
      rw [hsuc] at hs
      simp at hs
      exact absurd hs hc

theorem c2_reach_avoid1 : ∀ x, ReachAvoid c2Body 1 0 x → x = 0 :=
  fun x h => c2_reach_avoid1_aux 0 x h rfl

/-- Block 1 of `c2Body` dominates its predecessor 2: it is a loop header
in the sense of the specification. -/
theorem c2_one_dominates_two : Dominates c2Body 1 2 :=
  Or.inr (fun h => absurd (c2_reach_avoid1 2 h) (by decide))

/-- The other dominance queries `loop_headers` makes on `c2Body` (for the
edges `0 -> 1`, `1 -> 2`, `2 -> 3`) are negative, matching `c2Dom`. -/
theorem c2_negative_dominance :
    ¬ Dominates c2Body 1 0 ∧ ¬ Dominates c2Body 2 1 ∧ ¬ Dominates c2Body 3 2 := by
  refine ⟨?_, ?_, ?_⟩
  · rintro (h | h)
    · exact absurd h (by decide)
    · exact h (ReachAvoid.refl 0 (by decide))
  · rintro (h | h)
    · exact absurd h (by decide)
    · have s1 : ReachAvoid c2Body 2 0 1 :=
        ReachAvoid.step (ReachAvoid.refl 0 (by decide))
          (show (1 : BasicBlock) ∈ (c2Body.terminatorOf 0).successors by decide) (by decide)
      exact h s1
  · rintro (h | h)
    · exact absurd h (by decide)
    · have s1 : ReachAvoid c2Body 3 0 1 :=
        ReachAvoid.step (ReachAvoid.refl 0 (by decide))
          (show (1 : BasicBlock) ∈ (c2Body.terminatorOf 0).successors by decide) (by decide)
      have s2 : ReachAvoid c2Body 3 0 2 :=
        ReachAvoid.step s1
          (show (2 : BasicBlock) ∈ (c2Body.terminatorOf 1).successors by decide) (by decide)
      exact h s2

/-- C2 evaluated at the failing input: block 1 is a loop header, yet the
finder discovers the opportunity `{chain := [1, 2], target := 1}` (the
`Assert` arm of `recurse_through_terminator` registers a chain anchored at
the unchecked predecessor), so the `run_pass` assertion that no chain
contains a loop header evaluates to `false` — the source `assert!` fails. -/
theorem C2_assertion_fails_on_failing_input :
    loop_headers c2Body c2Dom = [1] ∧
    (1 : BasicBlock) ∈ (c2Body.terminatorOf 2).successors ∧
    runPassOpportunities c2Params = [⟨[1, 2], 1⟩] ∧
    runPassAssertion c2Params = false := by
  exact ⟨by decide, by decide, by decide, by decide⟩

/-! ## The predecessor-cache invariant (C4) -/

/-- The cached predecessor counts agree with the graph's true counts. -/
def CacheAccurate (os : OpportunitySet) (body : Body) : Prop :=
  os.predecessors = predecessor_count body

/-- Every opportunity's target and chain blocks lie inside the body. -/
def OppsBounded (os : OpportunitySet) (n : Nat) : Prop :=
  ∀ opp ∈ os.opportunities, opp.target < n ∧ ∀ b ∈ opp.chain, b < n

theorem getD_append_left {α : Type _} {l1 l2 : List α} {i : Nat} (h : i < l1.length) (d : α) :
    (l1 ++ l2).getD i d = l1.getD i d := by
  rw [List.getD_eq_getElem?_getD, List.getD_eq_getElem?_getD, List.getElem?_append]
  simp [h]

theorem getD_append_len {α : Type _} {l1 : List α} {x : α} (d : α) :
    (l1 ++ [x]).getD l1.length d = x := by
  rw [List.getD_eq_getElem?_getD, List.getElem?_append_right (le_refl _)]
  simp

theorem getD_set_self {α : Type _} {l : List α} {i : Nat} {x : α} (d : α) (h : i < l.length) :
    (l.set i x).getD i d = x := by
  rw [List.getD_eq_getElem?_getD, List.getElem?_set_eq_of_lt _ h]
  rfl

theorem getD_set_ne {α : Type _} {l : List α} {i j : Nat} {x : α} (d : α) (h : i ≠ j) :
    (l.set i x).getD j d = l.getD j d := by
  rw [List.getD_eq_getElem?_getD, List.getElem?_set_ne h, List.getD_eq_getElem?_getD]

theorem getD_zero_of_ge {l : List Nat} {i : Nat} (h : l.length ≤ i) : l.getD i 0 = 0 := by
  rw [List.getD_eq_getElem?_getD, List.getElem?_eq_none h]
  rfl

theorem count_eq_zero_of_all_lt {l : List Nat} {n : Nat} (h : ∀ s ∈ l, s < n) :
    l.count n = 0 :=
  List.count_eq_zero.mpr (fun hmem => absurd (h n hmem) (lt_irrefl n))

/-- `update_predecessor_count .. Incr` adds the successor multiplicity. -/
theorem incr_foldl_getD (ss : List Nat) (c : List Nat)
    (hb : ∀ s ∈ ss, s < c.length) (b : Nat) :
    (ss.foldl (fun c s => c.set s (c.getD s 0 + 1)) c).getD b 0 =
      c.getD b 0 + ss.count b := by
  induction ss generalizing c with
  | nil => simp
  | cons s rest ih =>
      have hs : s < c.length := hb s (by simp)
      have hstep : (s :: rest).foldl (fun c s => c.set s (c.getD s 0 + 1)) c =
          rest.foldl (fun c s => c.set s (c.getD s 0 + 1)) (c.set s (c.getD s 0 + 1)) := rfl
      rw [hstep, ih _ (fun x hx => by rw [List.length_set]; exact hb x (by simp [hx]))]
      by_cases hsb : s = b
      · subst hsb
        rw [getD_set_self 0 hs, List.count_cons_self]
        omega
      · rw [getD_set_ne 0 hsb, List.count_cons_of_ne (fun h => hsb (by simpa using h.symm))]

theorem incr_foldl_length (ss : List Nat) (c : List Nat) :
    (ss.foldl (fun c s => c.set s (c.getD s 0 + 1)) c).length = c.length := by
  induction ss generalizing c with
  | nil => rfl
  | cons s rest ih =>
      have hstep : (s :: rest).foldl (fun c s => c.set s (c.getD s 0 + 1)) c =
          rest.foldl (fun c s => c.set s (c.getD s 0 + 1)) (c.set s (c.getD s 0 + 1)) := rfl
      rw [hstep, ih]
      simp

/-- `update_predecessor_count .. Decr` subtracts the successor
multiplicity, exactly, when the counts cover it. -/
theorem decr_foldl_getD (ss : List Nat) (c : List Nat)
    (hb : ∀ s ∈ ss, s < c.length) (hge : ∀ b, ss.count b ≤ c.getD b 0) (b : Nat) :
    (ss.foldl (fun c s => c.set s (c.getD s 0 - 1)) c).getD b 0 =
      c.getD b 0 - ss.count b := by
  induction ss generalizing c with
  | nil => simp
  | cons s rest ih =>
      have hs : s < c.length := hb s (by simp)
      have hstep : (s :: rest).foldl (fun c s => c.set s (c.getD s 0 - 1)) c =
          rest.foldl (fun c s => c.set s (c.getD s 0 - 1)) (c.set s (c.getD s 0 - 1)) := rfl
      rw [hstep, ih _ (fun x hx => by rw [List.length_set]; exact hb x (by simp [hx]))]
      · by_cases hsb : s = b
        · subst hsb
          rw [getD_set_self 0 hs, List.count_cons_self]
          have := hge s
          rw [List.count_cons_self] at this
          omega
        · rw [getD_set_ne 0 hsb, List.count_cons_of_ne (fun h => hsb (by simpa using h.symm))]
      · intro x
        by_cases hsx : s = x
        · subst hsx
          rw [getD_set_self 0 hs]
          have := hge s
          rw [List.count_cons_self] at this
          omega
        · rw [getD_set_ne 0 hsx]
          have := hge x
          rw [List.count_cons_of_ne (fun h => hsx (by simpa using h.symm))] at this
          exact this

theorem decr_foldl_length (ss : List Nat) (c : List Nat) :
    (ss.foldl (fun c s => c.set s (c.getD s 0 - 1)) c).length = c.length := by
  induction ss generalizing c with
  | nil => rfl
  | cons s rest ih =>
      have hstep : (s :: rest).foldl (fun c s => c.set s (c.getD s 0 - 1)) c =
          rest.foldl (fun c s => c.set s (c.getD s 0 - 1)) (c.set s (c.getD s 0 - 1)) := rfl
      rw [hstep, ih]
      simp

theorem option_toList_map (f : BasicBlock → BasicBlock) (o : Option BasicBlock) :
    (o.map f).toList = o.toList.map f := by
  cases o <;> rfl

/-- The successors of a rewritten terminator are the images of its
successors. -/
theorem successors_mapSuccessors (t : Terminator) (f : BasicBlock → BasicBlock) :
    (t.mapSuccessors f).successors = t.successors.map f := by
  cases t <;>
    simp [Terminator.mapSuccessors, Terminator.successors, List.map_map,
      option_toList_map, List.map_append, Function.comp]

/-- Occurrence counts after redirecting every `succ` edge onto a fresh
index `new` absent from the list. -/
theorem count_map_swap (l : List Nat) (succ new b : Nat) (hnew : ∀ s ∈ l, s ≠ new) :
    (l.map (fun s => if s = succ then new else s)).count b =
      if b = new then l.count succ else if b = succ then 0 else l.count b := by
  induction l with
  | nil => simp
  | cons a rest ih =>
      have ha : a ≠ new := hnew a (by simp)
      have ih' := ih (fun s hs => hnew s (by simp [hs]))
      simp only [List.map_cons, List.count_cons, ih', beq_iff_eq]
      split_ifs <;> subst_vars <;> omega

/-- List equality from pointwise `getD` agreement and equal lengths. -/
theorem list_eq_of_getD {l1 l2 : List Nat} (hlen : l1.length = l2.length)
    (h : ∀ b, l1.getD b 0 = l2.getD b 0) : l1 = l2 := by
  apply List.ext_getElem hlen
  intro i h1 h2
  have := h i
  rw [List.getD_eq_getElem?_getD, List.getD_eq_getElem?_getD,
    List.getElem?_eq_getElem h1, List.getElem?_eq_getElem h2] at this
  simpa using this

/-- In a well-formed body, the successors of an in-range block are in
range. -/
theorem wf_successors_lt (body : Body) (hwf : body.WF) (p : Nat)
    (hp : p < body.blocks.length) :
    ∀ s ∈ (body.terminatorOf p).successors, s < body.blocks.length := by
  intro s hs
  have hget : body.getBlock p = body.blocks[p] := by
    unfold Body.getBlock
    rw [List.getD_eq_getElem?_getD, List.getElem?_eq_getElem hp]
    rfl
  have hmem : body.getBlock p ∈ body.blocks := by
    rw [hget]
    exact List.getElem_mem hp
  exact hwf _ hmem s hs

/-- The predecessor-count bookkeeping of the clone branch of `apply_once`
matches the true counts of the rewritten body: pushing the clone's
in-degree, subtracting the redirected edges from `succ`, and incrementing
the clone's successors reproduces `predecessor_count` of the new graph. -/
theorem clone_accounting (body : Body) (cache : List Nat) (current succ : Nat)
    (hwf : body.WF) (hcache : cache = predecessor_count body)
    (hcur : current < body.blocks.length) (hsucc : succ < body.blocks.length) :
    updatePredecessorCount
      ((cache ++ [((⟨body.blocks ++ [body.getBlock succ]⟩ : Body).terminatorOf current).successors.count succ]).set succ
        ((cache ++ [((⟨body.blocks ++ [body.getBlock succ]⟩ : Body).terminatorOf current).successors.count succ]).getD succ 0
          - ((⟨body.blocks ++ [body.getBlock succ]⟩ : Body).terminatorOf current).successors.count succ))
      ((⟨(body.blocks ++ [body.getBlock succ]).set current
          { (⟨body.blocks ++ [body.getBlock succ]⟩ : Body).getBlock current with
            terminator := ((⟨body.blocks ++ [body.getBlock succ]⟩ : Body).terminatorOf current).mapSuccessors
              (fun s => if s = succ then body.blocks.length else s) }⟩ : Body).terminatorOf
        body.blocks.length)
      Update.Incr =
    predecessor_count (⟨(body.blocks ++ [body.getBlock succ]).set current
      { (⟨body.blocks ++ [body.getBlock succ]⟩ : Body).getBlock current with
        terminator := ((⟨body.blocks ++ [body.getBlock succ]⟩ : Body).terminatorOf current).mapSuccessors
          (fun s => if s = succ then body.blocks.length else s) }⟩ : Body) := by
  have hcachelen : cache.length = body.blocks.length := by
    rw [hcache, predecessor_count_length]
  have hb1cur : (⟨body.blocks ++ [body.getBlock succ]⟩ : Body).terminatorOf current
      = body.terminatorOf current := by
    unfold Body.terminatorOf Body.getBlock
    congr 1
    exact getD_append_left hcur default
  rw [hb1cur]
  have hsuccWF := wf_successors_lt body hwf succ hsucc
  have hcurWF := wf_successors_lt body hwf current hcur
  have hlenpos : 0 < body.blocks.length := lt_of_le_of_lt (Nat.zero_le _) hcur
  -- facts about the rewritten body
  have hB2len : (⟨(body.blocks ++ [body.getBlock succ]).set current
      { (⟨body.blocks ++ [body.getBlock succ]⟩ : Body).getBlock current with
        terminator := (body.terminatorOf current).mapSuccessors
          (fun s => if s = succ then body.blocks.length else s) }⟩ : Body).blocks.length
      = body.blocks.length + 1 := by
    simp
  have hB2term_len : (⟨(body.blocks ++ [body.getBlock succ]).set current
      { (⟨body.blocks ++ [body.getBlock succ]⟩ : Body).getBlock current with
        terminator := (body.terminatorOf current).mapSuccessors
          (fun s => if s = succ then body.blocks.length else s) }⟩ : Body).terminatorOf
        body.blocks.length = body.terminatorOf succ := by
    unfold Body.terminatorOf Body.getBlock
    simp only
    rw [List.getD_eq_getElem?_getD, List.getElem?_set_ne (Nat.ne_of_lt hcur),
      List.getElem?_append_right (le_refl _)]
    simp [Body.getBlock, Body.terminatorOf]
  have hB2term_cur : (⟨(body.blocks ++ [body.getBlock succ]).set current
      { (⟨body.blocks ++ [body.getBlock succ]⟩ : Body).getBlock current with
        terminator := (body.terminatorOf current).mapSuccessors
          (fun s => if s = succ then body.blocks.length else s) }⟩ : Body).terminatorOf
        current = (body.terminatorOf current).mapSuccessors
          (fun s => if s = succ then body.blocks.length else s) := by
    unfold Body.terminatorOf Body.getBlock
    simp only
    rw [List.getD_eq_getElem?_getD, List.getElem?_set_eq_of_lt _ (by simp; omega)]
    rfl
  have hB2term_other : ∀ p, p ≠ current → p < body.blocks.length →
      (⟨(body.blocks ++ [body.getBlock succ]).set current
        { (⟨body.blocks ++ [body.getBlock succ]⟩ : Body).getBlock current with
          terminator := (body.terminatorOf current).mapSuccessors
            (fun s => if s = succ then body.blocks.length else s) }⟩ : Body).terminatorOf
          p = body.terminatorOf p := by
    intro p hne hp
    unfold Body.terminatorOf Body.getBlock
    simp only
    rw [List.getD_eq_getElem?_getD, List.getElem?_set_ne (fun h => hne h.symm),
      List.getElem?_append]
    simp only [hp, if_pos]
    rw [← List.getD_eq_getElem?_getD]
  rw [hB2term_len]
  have hcurrange : current ∈ Finset.range body.blocks.length := Finset.mem_range.mpr hcur
  -- the shared erased sum
  have hinEdges : ∀ bb, body.inEdges bb =
      (∑ p ∈ (Finset.range body.blocks.length).erase current,
        ((body.terminatorOf p).successors.count bb))
      + ((body.terminatorOf current).successors.count bb) := by
    intro bb
    rw [inEdges_eq_sum]
    exact (Finset.sum_erase_add _ _ hcurrange).symm
  have hinEdges2 : ∀ bb, (⟨(body.blocks ++ [body.getBlock succ]).set current
      { (⟨body.blocks ++ [body.getBlock succ]⟩ : Body).getBlock current with
        terminator := (body.terminatorOf current).mapSuccessors
          (fun s => if s = succ then body.blocks.length else s) }⟩ : Body).inEdges bb =
      (∑ p ∈ (Finset.range body.blocks.length).erase current,
        ((body.terminatorOf p).successors.count bb))
      + (((body.terminatorOf current).successors.map
          (fun s => if s = succ then body.blocks.length else s)).count bb)
      + ((body.terminatorOf succ).successors.count bb) := by
    intro bb
    rw [inEdges_eq_sum, hB2len, Finset.sum_range_succ, hB2term_len]
    congr 1
    rw [← Finset.sum_erase_add _ _ hcurrange, hB2term_cur, successors_mapSuccessors]
    congr 1
    apply Finset.sum_congr rfl
    intro p hp
    have hpne : p ≠ current := (Finset.mem_erase.mp hp).1
    have hplt : p < body.blocks.length := Finset.mem_range.mp (Finset.mem_erase.mp hp).2
    rw [hB2term_other p hpne hplt]
  -- lengths
  apply list_eq_of_getD
  · show (updatePredecessorCount _ _ Update.Incr).length = _
    unfold updatePredecessorCount
    rw [incr_foldl_length, List.length_set, List.length_append, hcachelen,
      predecessor_count_length, hB2len]
    rfl
  · intro b
    have hsetlen : ((cache ++ [(body.terminatorOf current).successors.count succ]).set succ
        ((cache ++ [(body.terminatorOf current).successors.count succ]).getD succ 0
          - (body.terminatorOf current).successors.count succ)).length
        = body.blocks.length + 1 := by
      rw [List.length_set, List.length_append, hcachelen]
      rfl
    have hlhs : (updatePredecessorCount
        ((cache ++ [(body.terminatorOf current).successors.count succ]).set succ
          ((cache ++ [(body.terminatorOf current).successors.count succ]).getD succ 0
            - (body.terminatorOf current).successors.count succ))
        (body.terminatorOf succ) Update.Incr).getD b 0 =
        ((cache ++ [(body.terminatorOf current).successors.count succ]).set succ
          ((cache ++ [(body.terminatorOf current).successors.count succ]).getD succ 0
            - (body.terminatorOf current).successors.count succ)).getD b 0
          + (body.terminatorOf succ).successors.count b := by
      unfold updatePredecessorCount
      exact incr_foldl_getD _ _
        (fun s hs => by rw [hsetlen]; exact lt_trans (hsuccWF s hs) (by omega)) b
    rw [hlhs]
    by_cases hb : b < body.blocks.length + 1
    · -- in-range positions
      rw [predecessor_count_getD _ b (by rw [hB2len]; exact hb), hinEdges2 b]
      by_cases hbsucc : b = succ
      · rw [hbsucc]
        have hmapc := count_map_swap (body.terminatorOf current).successors succ
          body.blocks.length succ (fun s hs => Nat.ne_of_lt (hcurWF s hs))
        rw [getD_set_self 0 (by rw [List.length_append, hcachelen]; omega),
          getD_append_left (by rw [hcachelen]; omega) 0]
        have hc : cache.getD succ 0 = body.inEdges succ +
            (if succ = START_BLOCK then 1 else 0) := by
          rw [hcache, predecessor_count_getD _ succ hsucc]
        have hsle : ¬ succ = body.blocks.length := by omega
        rw [hc, hinEdges succ, hmapc]
        simp only [hsle, if_false, eq_self_iff_true, if_true]
        generalize (if succ = START_BLOCK then 1 else 0) = e
        generalize (∑ p ∈ (Finset.range body.blocks.length).erase current,
          ((body.terminatorOf p).successors.count succ)) = S2
        omega
      · rw [getD_set_ne 0 (fun h => hbsucc h.symm)]
        by_cases hblen : b = body.blocks.length
        · rw [hblen]
          have happlen : (cache ++ [(body.terminatorOf current).successors.count succ]).getD
              body.blocks.length 0 = (body.terminatorOf current).successors.count succ := by
            rw [← hcachelen]
            exact getD_append_len 0
          rw [happlen]
          have hmapc := count_map_swap (body.terminatorOf current).successors succ
            body.blocks.length body.blocks.length (fun s hs => Nat.ne_of_lt (hcurWF s hs))
          have hcl0 : (body.terminatorOf succ).successors.count body.blocks.length = 0 :=
            count_eq_zero_of_all_lt hsuccWF
          have hS20 : (∑ p ∈ (Finset.range body.blocks.length).erase current,
              ((body.terminatorOf p).successors.count body.blocks.length)) = 0 := by
            apply Finset.sum_eq_zero
            intro p hp
            have hplt : p < body.blocks.length :=
              Finset.mem_range.mp (Finset.mem_erase.mp hp).2
            exact count_eq_zero_of_all_lt (wf_successors_lt body hwf p hplt)
          rw [hmapc, hcl0, hS20]
          simp only [eq_self_iff_true, if_true]
          have hbstart : ¬ body.blocks.length = START_BLOCK := by
            unfold START_BLOCK
            omega
          simp [hbstart]
        · have hblt : b < body.blocks.length := by omega
          rw [getD_append_left (by rw [hcachelen]; omega) 0]
          have hmapc := count_map_swap (body.terminatorOf current).successors succ
            body.blocks.length b (fun s hs => Nat.ne_of_lt (hcurWF s hs))
          have hc : cache.getD b 0 = body.inEdges b + (if b = START_BLOCK then 1 else 0) := by
            rw [hcache, predecessor_count_getD _ b hblt]
          rw [hc, hinEdges b, hmapc]
          simp only [hblen, hbsucc, if_false]
          generalize (if b = START_BLOCK then 1 else 0) = e
          generalize (∑ p ∈ (Finset.range body.blocks.length).erase current,
            ((body.terminatorOf p).successors.count b)) = S2
          omega
    · -- out-of-range positions are zero on both sides
      rw [predecessor_count_getD_ge _ b (by rw [hB2len]; omega),
        getD_zero_of_ge (by rw [hsetlen]; omega)]
      have : (body.terminatorOf succ).successors.count b = 0 :=
        count_eq_zero_of_all_lt (fun s hs => lt_trans (hsuccWF s hs) (by omega))
      omega

/-- The clone branch of a hop keeps the predecessor cache accurate. -/
theorem cloneHop_cache (index current succ : Nat) (os : OpportunitySet) (body : Body)
    (hwf : body.WF) (hcache : CacheAccurate os body)
    (hcur : current < body.blocks.length) (hsucc : succ < body.blocks.length) :
    CacheAccurate (cloneHop index current succ os body).2.1
      (cloneHop index current succ os body).2.2 :=
  clone_accounting body os.predecessors current succ hwf hcache hcur hsucc

theorem cloneHop_body_length (index current succ : Nat) (os : OpportunitySet) (body : Body) :
    (cloneHop index current succ os body).2.2.blocks.length = body.blocks.length + 1 := by
  show ((body.blocks ++ [body.getBlock succ]).set current _).length = _
  simp

/-- The clone branch of a hop keeps the body well-formed. -/
theorem cloneHop_wf (index current succ : Nat) (os : OpportunitySet) (body : Body)
    (hwf : body.WF) (hcur : current < body.blocks.length)
    (hsucc : succ < body.blocks.length) :
    (cloneHop index current succ os body).2.2.WF := by
  have hb1cur : (⟨body.blocks ++ [body.getBlock succ]⟩ : Body).terminatorOf current
      = body.terminatorOf current := by
    unfold Body.terminatorOf Body.getBlock
    congr 1
    exact getD_append_left hcur default
  have hcurWF := wf_successors_lt body hwf current hcur
  intro bd hbd s hs
  rw [cloneHop_body_length]
  have hbd' : bd ∈ (body.blocks ++ [body.getBlock succ]) ∨
      bd = { (⟨body.blocks ++ [body.getBlock succ]⟩ : Body).getBlock current with
        terminator := ((⟨body.blocks ++ [body.getBlock succ]⟩ : Body).terminatorOf current).mapSuccessors
          (fun x => if x = succ then body.blocks.length else x) } :=
    List.mem_or_eq_of_mem_set hbd
  rcases hbd' with h | h
  · rcases List.mem_append.mp h with h | h
    · exact Nat.lt_succ_of_lt (hwf bd h s hs)
    · have hbd2 : bd = body.getBlock succ := by simpa using h
      subst hbd2
      have hmemblocks : body.getBlock succ ∈ body.blocks := by
        have hget : body.getBlock succ = body.blocks[succ] := by
          unfold Body.getBlock
          rw [List.getD_eq_getElem?_getD, List.getElem?_eq_getElem hsucc]
          rfl
        rw [hget]
        exact List.getElem_mem hsucc
      exact Nat.lt_succ_of_lt (hwf _ hmemblocks s hs)
  · subst h
    simp only [hb1cur] at hs
    rw [successors_mapSuccessors] at hs
    rcases List.mem_map.mp hs with ⟨x, hx, rfl⟩
    have := hcurWF x hx
    by_cases hxs : x = succ
    · simp [hxs]
    · rw [if_neg hxs]
      exact Nat.lt_succ_of_lt this

theorem getD_mem_or_eq {α : Type _} (l : List α) (i : Nat) (d : α) :
    l.getD i d ∈ l ∨ l.getD i d = d := by
  by_cases h : i < l.length
  · left
    rw [List.getD_eq_getElem?_getD, List.getElem?_eq_getElem h]
    exact List.getElem_mem h
  · right
    rw [List.getD_eq_getElem?_getD, List.getElem?_eq_none (Nat.le_of_not_lt h)]
    rfl

/-- One step of the `involving_tos` rewriting loop keeps every
opportunity's target and chain inside the (extended) body. -/
theorem involvedStep_bounded (index new_succ current succ n : Nat)
    (hn : new_succ < n) (acc : List ThreadingOpportunity × List (Nat × Nat)) (e : Nat × Nat)
    (hP : ∀ opp ∈ acc.1, opp.target < n ∧ ∀ b ∈ opp.chain, b < n) :
    ∀ opp ∈ (involvedStep index new_succ current succ acc e).1,
      opp.target < n ∧ ∀ b ∈ opp.chain, b < n := by
  obtain ⟨ti, ii⟩ := e
  have hother : ∀ (o : ThreadingOpportunity),
      (o.target < n ∧ ∀ b ∈ o.chain, b < n) →
      ∀ opp ∈ acc.1.set ti o, opp.target < n ∧ ∀ b ∈ opp.chain, b < n := by
    intro o ho opp hopp
    rcases List.mem_or_eq_of_mem_set hopp with h | h
    · exact hP opp h
    · subst h
      exact ho
  have hdmem : (acc.1.getD ti default).target < n ∧
      ∀ b ∈ (acc.1.getD ti default).chain, b < n := by
    rcases getD_mem_or_eq acc.1 ti default with h | h
    · exact hP _ h
    · rw [h]
      refine ⟨by simpa using lt_of_le_of_lt (Nat.zero_le _) hn, ?_⟩
      intro b hb
      simp [default] at hb
  unfold involvedStep
  by_cases h1 : ti ≤ index
  · simp only [if_pos h1]
    exact hP
  · simp only [if_neg h1]
    by_cases h2 : (acc.1.getD ti default).chain.get? ii ≠ some current
    · simp only [if_pos h2]
      exact hP
    · simp only [if_neg h2]
      cases hg : (acc.1.getD ti default).chain.get? (ii + 1) with
      | some s =>
          by_cases hss : s = succ
          · simp only [hg, if_pos hss]
            apply hother
            refine ⟨hdmem.1, ?_⟩
            intro b hb
            rcases List.mem_or_eq_of_mem_set hb with h | h
            · exact hdmem.2 b h
            · subst h
              exact hn
          · simp only [hg, if_neg hss]
            exact hP
      | none =>
          by_cases ht : (acc.1.getD ti default).target = succ
          · simp only [hg, if_pos ht]
            exact hother _ ⟨hn, hdmem.2⟩
          · simp only [hg, if_neg ht]
            exact hP

/-- The clone branch of a hop keeps every opportunity inside the extended
body. -/
theorem cloneHop_bounded (index current succ : Nat) (os : OpportunitySet) (body : Body)
    (hob : OppsBounded os body.blocks.length) :
    OppsBounded (cloneHop index current succ os body).2.1
      (cloneHop index current succ os body).2.2.blocks.length := by
  have heq : (cloneHop index current succ os body).2.1.opportunities =
      ((os.involving_tos.getD current []).foldl
        (involvedStep index body.blocks.length current succ) (os.opportunities, [])).1 := rfl
  unfold OppsBounded
  rw [heq, cloneHop_body_length]
  refine @foldl_preserve _ _
    (fun acc : List ThreadingOpportunity × List (Nat × Nat) =>
      ∀ opp ∈ acc.1, opp.target < body.blocks.length + 1 ∧
        ∀ b ∈ opp.chain, b < body.blocks.length + 1)
    (involvedStep index body.blocks.length current succ)
    (os.involving_tos.getD current []) (os.opportunities, []) ?_ ?_
  · intro opp hopp
    have := hob opp hopp
    exact ⟨Nat.lt_succ_of_lt this.1, fun b hb => Nat.lt_succ_of_lt (this.2 b hb)⟩
  · intro a x _ ha
    exact involvedStep_bounded index body.blocks.length current succ
      (body.blocks.length + 1) (by omega) a x ha

theorem find?_isNone_false_mem {l : List Nat} {succ : Nat}
    (h : (l.find? (· = succ)).isNone = false) : succ ∈ l := by
  cases hf : l.find? (· = succ) with
  | none => rw [hf] at h; simp at h
  | some x =>
      have hmem := List.mem_of_find?_eq_some hf
      have hx := List.find?_some hf
      simp at hx
      subst hx
      exact hmem

/-- The invariants preserved by application: well-formed body, accurate
predecessor cache, in-range opportunities. -/
def ApplyInv (os : OpportunitySet) (body : Body) : Prop :=
  body.WF ∧ CacheAccurate os body ∧ OppsBounded os body.blocks.length

/-- One hop of `apply_once` preserves the invariants; the new `current`
stays inside the (possibly grown) body. -/
theorem applyHop_inv (index current succ : Nat) (os : OpportunitySet) (body : Body)
    (res : BasicBlock × OpportunitySet × Body)
    (hinv : ApplyInv os body) (hcur : current < body.blocks.length)
    (h : applyHop index current succ os body = some res) :
    ApplyInv res.2.1 res.2.2 ∧ res.1 < res.2.2.blocks.length ∧
      body.blocks.length ≤ res.2.2.blocks.length := by
  obtain ⟨hwf, hcache, hob⟩ := hinv
  unfold applyHop at h
  by_cases hf : ((body.terminatorOf current).successors.find? (· = succ)).isNone = true
  · rw [if_pos hf] at h
    exact absurd h (by simp)
  · have hf' : ((body.terminatorOf current).successors.find? (· = succ)).isNone = false := by
      simpa using hf
    rw [if_neg hf] at h
    have hedge : succ ∈ (body.terminatorOf current).successors := find?_isNone_false_mem hf'
    have hsucc : succ < body.blocks.length := wf_successors_lt body hwf current hcur succ hedge
    by_cases h1 : os.predecessors.getD succ 0 = 1
    · rw [if_pos h1] at h
      have hres : res = (succ, os, body) := by
        injection h with h2
        exact h2.symm
      subst hres
      exact ⟨⟨hwf, hcache, hob⟩, hsucc, le_refl _⟩
    · rw [if_neg h1] at h
      have hres : res = cloneHop index current succ os body := by
        injection h with h2
        exact h2.symm
      subst hres
      refine ⟨⟨cloneHop_wf index current succ os body hwf hcur hsucc,
        cloneHop_cache index current succ os body hwf hcache hcur hsucc,
        cloneHop_bounded index current succ os body hob⟩, ?_, ?_⟩
      · rw [cloneHop_body_length]
        show body.blocks.length < body.blocks.length + 1
        omega
      · rw [cloneHop_body_length]
        omega

/-- The chain-walking loop of `apply_once` preserves the invariants. -/
theorem applyChainLoop_inv (index : Nat) (chain : List BasicBlock) :
    ∀ (current : Nat) (os : OpportunitySet) (body : Body),
    ApplyInv os body → current < body.blocks.length →
    ApplyInv (applyChainLoop index current chain os body).2.1
        (applyChainLoop index current chain os body).2.2 ∧
      body.blocks.length ≤ (applyChainLoop index current chain os body).2.2.blocks.length ∧
      (∀ cur, (applyChainLoop index current chain os body).1 = some cur →
        cur < (applyChainLoop index current chain os body).2.2.blocks.length) := by
  induction chain with
  | nil =>
      intro current os body hinv hcur
      refine ⟨hinv, le_refl _, ?_⟩
      intro cur hcureq
      have : cur = current := by
        simpa [applyChainLoop] using hcureq.symm
      subst this
      exact hcur
  | cons succ rest ih =>
      intro current os body hinv hcur
      rcases hhop : applyHop index current succ os body with _ | ⟨c', os', body'⟩
      · have hloop : applyChainLoop index current (succ :: rest) os body = (none, os, body) := by
          simp [applyChainLoop, hhop]
        rw [hloop]
        exact ⟨hinv, le_refl _, fun cur hcur' => by simp at hcur'⟩
      · have hstep := applyHop_inv index current succ os body (c', os', body') hinv hcur hhop
        have hloop : applyChainLoop index current (succ :: rest) os body =
            applyChainLoop index c' rest os' body' := by
          simp [applyChainLoop, hhop]
        rw [hloop]
        have := ih c' os' body' hstep.1 hstep.2.1
        exact ⟨this.1, le_trans hstep.2.2 this.2.1, this.2.2⟩

/-- The final rewrite of `apply_once` (replace the walked-to terminator by
`Goto target`) preserves the invariants and the body length. -/
theorem finalize_inv (cur target : Nat) (os : OpportunitySet) (body : Body)
    (hinv : ApplyInv os body) (hcur : cur < body.blocks.length)
    (htgt : target < body.blocks.length) :
    ApplyInv (finalizeOpportunity cur target os body).1
        (finalizeOpportunity cur target os body).2 ∧
      (finalizeOpportunity cur target os body).2.blocks.length = body.blocks.length := by
  obtain ⟨hwf, hcache, hob⟩ := hinv
  have hcachelen : os.predecessors.length = body.blocks.length := by
    rw [hcache, predecessor_count_length]
  have hcurWF := wf_successors_lt body hwf cur hcur
  have hlen' : (finalizeOpportunity cur target os body).2.blocks.length
      = body.blocks.length := by
    show (body.blocks.set cur _).length = _
    simp
  have hterm_cur : (finalizeOpportunity cur target os body).2.terminatorOf cur
      = Terminator.Goto target := by
    show ((body.blocks.set cur _).getD cur default).terminator = _
    rw [List.getD_eq_getElem?_getD, List.getElem?_set_eq_of_lt _ hcur]
    rfl
  have hterm_other : ∀ p, p ≠ cur →
      (finalizeOpportunity cur target os body).2.terminatorOf p = body.terminatorOf p := by
    intro p hne
    show ((body.blocks.set cur _).getD p default).terminator = _
    rw [List.getD_eq_getElem?_getD, List.getElem?_set_ne (fun h => hne h.symm),
      ← List.getD_eq_getElem?_getD]
    rfl
  have hge : ∀ b, (body.terminatorOf cur).successors.count b ≤ os.predecessors.getD b 0 := by
    intro b
    by_cases hb : b < body.blocks.length
    · rw [hcache, predecessor_count_getD _ b hb]
      have := count_le_inEdges body cur b hcur
      omega
    · have : (body.terminatorOf cur).successors.count b = 0 :=
        count_eq_zero_of_all_lt (fun s hs => lt_of_lt_of_le (hcurWF s hs) (Nat.le_of_not_lt hb))
      omega
  have hpreds1 : ∀ b,
      (updatePredecessorCount os.predecessors (body.terminatorOf cur) Update.Decr).getD b 0
      = os.predecessors.getD b 0 - (body.terminatorOf cur).successors.count b := by
    intro b
    unfold updatePredecessorCount
    exact decr_foldl_getD _ _ (fun s hs => by rw [hcachelen]; exact hcurWF s hs) hge b
  have hpreds1len :
      (updatePredecessorCount os.predecessors (body.terminatorOf cur) Update.Decr).length
      = body.blocks.length := by
    unfold updatePredecessorCount
    rw [decr_foldl_length, hcachelen]
  have hcurrange : cur ∈ Finset.range body.blocks.length := Finset.mem_range.mpr hcur
  have hinEdges : ∀ bb, body.inEdges bb =
      (∑ p ∈ (Finset.range body.blocks.length).erase cur,
        ((body.terminatorOf p).successors.count bb))
      + ((body.terminatorOf cur).successors.count bb) := by
    intro bb
    rw [inEdges_eq_sum]
    exact (Finset.sum_erase_add _ _ hcurrange).symm
  have hinEdgesF : ∀ bb, (finalizeOpportunity cur target os body).2.inEdges bb =
      (∑ p ∈ (Finset.range body.blocks.length).erase cur,
        ((body.terminatorOf p).successors.count bb))
      + ([target].count bb) := by
    intro bb
    rw [inEdges_eq_sum, hlen', ← Finset.sum_erase_add _ _ hcurrange, hterm_cur]
    congr 1
    apply Finset.sum_congr rfl
    intro p hp
    rw [hterm_other p (Finset.mem_erase.mp hp).1]
  refine ⟨⟨?_, ?_, ?_⟩, hlen'⟩
  · intro bd hbd s hs
    rw [hlen']
    rcases List.mem_or_eq_of_mem_set hbd with h | h
    · exact hwf bd h s hs
    · subst h
      simp only [Terminator.successors] at hs
      have : s = target := by simpa using hs
      subst this
      exact htgt
  · show ((updatePredecessorCount os.predecessors (body.terminatorOf cur) Update.Decr).set target
        ((updatePredecessorCount os.predecessors (body.terminatorOf cur) Update.Decr).getD
          target 0 + 1))
      = predecessor_count (finalizeOpportunity cur target os body).2
    apply list_eq_of_getD
    · rw [List.length_set, hpreds1len, predecessor_count_length, hlen']
    · intro b
      by_cases hb : b < body.blocks.length
      · rw [predecessor_count_getD _ b (by rw [hlen']; exact hb), hinEdgesF b]
        by_cases hbt : b = target
        · rw [hbt, getD_set_self 0 (by rw [hpreds1len]; exact htgt), hpreds1 target]
          have hc : os.predecessors.getD target 0 = body.inEdges target
              + (if target = START_BLOCK then 1 else 0) := by
            rw [hcache, predecessor_count_getD _ target htgt]
          rw [hc, hinEdges target]
          have hcount1 : ([target].count target) = 1 := by simp
          rw [hcount1]
          generalize (if target = START_BLOCK then 1 else 0) = e
          generalize (∑ p ∈ (Finset.range body.blocks.length).erase cur,
            ((body.terminatorOf p).successors.count target)) = S2
          omega
        · rw [getD_set_ne 0 (fun h => hbt h.symm), hpreds1 b]
          have hc : os.predecessors.getD b 0 = body.inEdges b
              + (if b = START_BLOCK then 1 else 0) := by
            rw [hcache, predecessor_count_getD _ b hb]
          rw [hc, hinEdges b]
          have hcount0 : ([target].count b) = 0 := by
            simp [List.count_singleton]
            intro h
            exact absurd h.symm hbt
          rw [hcount0]
          generalize (if b = START_BLOCK then 1 else 0) = e
          generalize (∑ p ∈ (Finset.range body.blocks.length).erase cur,
            ((body.terminatorOf p).successors.count b)) = S2
          omega
      · rw [predecessor_count_getD_ge _ b (by rw [hlen']; omega)]
        have hbt : ¬ b = target := by omega
        rw [getD_set_ne 0 (fun h => hbt h.symm), hpreds1 b,
          getD_zero_of_ge (by rw [hcachelen]; omega)]
        omega
  · intro opp hopp
    rw [hlen']
    exact hob opp hopp

theorem takeChain_inv (os : OpportunitySet) (index : Nat) (body : Body)
    (hinv : ApplyInv os body) : ApplyInv (takeChain os index) body := by
  obtain ⟨hwf, hcache, hob⟩ := hinv
  by_cases hidx : index < os.opportunities.length
  · refine ⟨hwf, hcache, ?_⟩
    intro opp hopp
    rcases List.mem_or_eq_of_mem_set hopp with h | h
    · exact hob opp h
    · subst h
      have hop : os.opportunities.getD index default ∈ os.opportunities := by
        rw [List.getD_eq_getElem?_getD, List.getElem?_eq_getElem hidx]
        exact List.getElem_mem hidx
      have := hob _ hop
      exact ⟨this.1, by simp⟩
  · have heq : takeChain os index = os := by
      unfold takeChain
      simp only [List.set_eq_of_length_le (Nat.le_of_not_lt hidx)]
    rw [heq]
    exact ⟨hwf, hcache, hob⟩

/-- `apply_once` preserves the invariants. -/
theorem applyOnce_inv (os : OpportunitySet) (index : Nat) (body : Body)
    (hinv : ApplyInv os body) :
    ApplyInv (applyOnce os index body).1 (applyOnce os index body).2 := by
  have hinv1 := takeChain_inv os index body hinv
  by_cases hidx : index < os.opportunities.length
  · have hopmem : os.opportunities.getD index default ∈ os.opportunities := by
      rw [List.getD_eq_getElem?_getD, List.getElem?_eq_getElem hidx]
      exact List.getElem_mem hidx
    have hbound := hinv.2.2 _ hopmem
    cases hchain : (os.opportunities.getD index default).chain with
    | nil =>
        have happ : applyOnce os index body = (takeChain os index, body) := by
          simp only [applyOnce, hchain]
        rw [happ]
        exact hinv1
    | cons c rest =>
        have hc : c < body.blocks.length := hbound.2 c (by rw [hchain]; simp)
        have hloopinv := applyChainLoop_inv index rest c (takeChain os index) body hinv1 hc
        rcases hloop : applyChainLoop index c rest (takeChain os index) body with
          ⟨ocur, os2, body2⟩
        rw [hloop] at hloopinv
        cases ocur with
        | none =>
            have happ : applyOnce os index body = (os2, body2) := by
              simp only [applyOnce, hchain, hloop]
            rw [happ]
            exact hloopinv.1
        | some cur =>
            have hcur2 : cur < body2.blocks.length := hloopinv.2.2 cur rfl
            have htgt : (os.opportunities.getD index default).target < body2.blocks.length :=
              lt_of_lt_of_le hbound.1 hloopinv.2.1
            have happ : applyOnce os index body =
                finalizeOpportunity cur (os.opportunities.getD index default).target
                  os2 body2 := by
              simp only [applyOnce, hchain, hloop]
            rw [happ]
            exact (finalize_inv cur _ os2 body2 hloopinv.1 hcur2 htgt).1
  · have hop : os.opportunities.getD index default = default := by
      rw [List.getD_eq_getElem?_getD, List.getElem?_eq_none (Nat.le_of_not_lt hidx)]
      rfl
    have happ : applyOnce os index body = (takeChain os index, body) := by
      simp only [applyOnce, hop]
    rw [happ]
    exact hinv1

theorem applyN_succ (os : OpportunitySet) (body : Body) (k : Nat) :
    applyN os body (k + 1) =
      applyOnce (applyN os body k).1 k (applyN os body k).2 := by
  unfold applyN
  rw [List.range_succ, List.foldl_append]
  rfl

/-- C4: starting from `OpportunitySet::new`, the cached predecessor counts
equal the graph's true predecessor counts before and after every
individual `apply_once`, throughout the application of the whole
opportunity list. -/
theorem C4_predecessor_cache_accuracy (body : Body) (opps : List ThreadingOpportunity)
    (hwf : body.WF)
    (hops : ∀ opp ∈ opps, opp.target < body.blocks.length ∧
       ∀ b ∈ opp.chain, b < body.blocks.length) :
    ∀ k, CacheAccurate (applyN (OpportunitySet.new body opps) body k).1
           (applyN (OpportunitySet.new body opps) body k).2 := by
  have hbase : ApplyInv (OpportunitySet.new body opps) body := ⟨hwf, rfl, hops⟩
  have hall : ∀ k, ApplyInv (applyN (OpportunitySet.new body opps) body k).1
      (applyN (OpportunitySet.new body opps) body k).2 := by
    intro k
    induction k with
    | zero => exact hbase
    | succ k ih =>
        rw [applyN_succ]
        exact applyOnce_inv _ k _ ih
  exact fun k => (hall k).2.1

/-- Witness for C4 at concrete inputs: applying both opportunities of the
join-then-switch example keeps the cache equal to the recomputed
predecessor counts. -/
theorem C4_predecessor_cache_accuracy_witness :
    (let body : Body := ⟨[⟨[], Terminator.Goto 2, false⟩, ⟨[], Terminator.Goto 2, false⟩,
       ⟨[], Terminator.SwitchInt (Operand.Copy 0) ⟨[(0, 3), (1, 4)], 5⟩, false⟩,
       ⟨[], Terminator.Return, false⟩, ⟨[], Terminator.Return, false⟩,
       ⟨[], Terminator.Return, false⟩]⟩
     let opps : List ThreadingOpportunity := [⟨[0, 2], 3⟩, ⟨[1, 2], 4⟩]
     CacheAccurate (applyN (OpportunitySet.new body opps) body 2).1
       (applyN (OpportunitySet.new body opps) body 2).2) := by
  intro body opps
  exact C4_predecessor_cache_accuracy body opps (by decide) (by decide) 2

end JumpThreading
